import Mathlib

set_option linter.unusedSectionVars false

/-!
Verification development for the finite abstract-algebra toolkit
(`algebra/set.py`, `algebra/function.py`, `algebra/element.py`,
`algebra/group.py`).

The Python `Set` class is a `frozenset`; we embed it as a duplicate-free
`List`, whose order stands for the (implementation-defined) iteration
order of the frozenset.  All set comparisons (`==`, `<=`) are embedded as
order-insensitive comparisons (`sEqB`, `sSubB`), matching frozenset
semantics, while iteration-dependent code (`utils.combos`, `__iter__`,
`display_order`) uses the list order.
-/

/-- Deduplication worker: keep elements not yet seen, in order. -/
def mkSetAux {α : Type} [DecidableEq α] (seen : List α) : List α → List α
  | [] => []
  | x :: xs => if x ∈ seen then mkSetAux seen xs else x :: mkSetAux (x :: seen) xs

/-- `Set(iterable)`: deduplicate, keeping the first occurrence of each
element (insertion order stands in for frozenset iteration order). -/
def mkSet {α : Type} [DecidableEq α] (l : List α) : List α :=
  mkSetAux [] l

/-- Frozenset union `a | b` (left operand's elements first). -/
def sUnion {α : Type} [DecidableEq α] (A B : List α) : List α :=
  A ++ B.filter (· ∉ A)

/-- Frozenset subset test `a <= b`. -/
def sSubB {α : Type} [DecidableEq α] (A B : List α) : Bool :=
  A.all (fun x => decide (x ∈ B))

/-- Frozenset equality `a == b` (set equality, order-insensitive). -/
def sEqB {α : Type} [DecidableEq α] (A B : List α) : Bool :=
  sSubB A B && sSubB B A

/-- `Set.__mul__`: Cartesian product `Set((x, y) for x in self for y in other)`,
specialised to the typed pair representation used by the group code. -/
def prodSet {α β : Type} (A : List α) (B : List β) : List (α × β) :=
  A.flatMap (fun x => B.map (fun y => (x, y)))

/-- `elements**2` as used by the group code: `Set(self * self)`. -/
def setSq {α : Type} [DecidableEq α] (A : List α) : List (α × α) :=
  mkSet (prodSet A A)

/-- `utils.combos(iterable, 2)`: `itertools.combinations_with_replacement`,
i.e. all pairs `(l[i], l[j])` with `i ≤ j`, in lexicographic index order. -/
def combos2 {α : Type} : List α → List (α × α)
  | [] => []
  | x :: xs => (x :: xs).map (fun y => (x, y)) ++ combos2 xs

/-- `utils.combos(iterable, 3)`: all triples `(l[i], l[j], l[k])` with
`i ≤ j ≤ k`, in lexicographic index order. -/
def combos3 {α : Type} : List α → List (α × α × α)
  | [] => []
  | x :: xs => (combos2 (x :: xs)).map (fun p => (x, p.1, p.2)) ++ combos3 xs

section SetLemmas

variable {α β : Type} [DecidableEq α]

theorem mem_mkSetAux {x : α} : ∀ {l seen : List α},
    x ∈ mkSetAux seen l ↔ x ∈ l ∧ x ∉ seen := by
  intro l
  induction l with
  | nil => intro seen; simp [mkSetAux]
  | cons y ys ih =>
    intro seen
    rw [mkSetAux]
    by_cases hy : y ∈ seen
    · rw [if_pos hy, ih]
      constructor
      · exact fun ⟨h1, h2⟩ => ⟨List.mem_cons_of_mem _ h1, h2⟩
      · rintro ⟨h1, h2⟩
        rcases List.mem_cons.1 h1 with rfl | h1'
        · exact absurd hy h2
        · exact ⟨h1', h2⟩
    · rw [if_neg hy]
      simp only [List.mem_cons, ih]
      constructor
      · rintro (rfl | ⟨h1, h2⟩)
        · exact ⟨Or.inl rfl, hy⟩
        · exact ⟨Or.inr h1, fun hs => h2 (Or.inr hs)⟩
      · rintro ⟨rfl | h1, h2⟩
        · exact Or.inl rfl
        · by_cases hxy : x = y
          · exact Or.inl hxy
          · refine Or.inr ⟨h1, fun hs => ?_⟩
            rcases hs with h | h
            · exact hxy h
            · exact h2 h

theorem mem_mkSet {x : α} {l : List α} : x ∈ mkSet l ↔ x ∈ l := by
  rw [mkSet, mem_mkSetAux]
  simp

theorem nodup_mkSetAux : ∀ (l seen : List α), (mkSetAux seen l).Nodup := by
  intro l
  induction l with
  | nil => intro seen; rw [mkSetAux]; exact List.nodup_nil
  | cons y ys ih =>
    intro seen
    rw [mkSetAux]
    by_cases hy : y ∈ seen
    · rw [if_pos hy]; exact ih seen
    · rw [if_neg hy]
      refine List.nodup_cons.2 ⟨?_, ih (y :: seen)⟩
      intro hmem
      exact (mem_mkSetAux.1 hmem).2 (List.mem_cons_self _ _)

theorem nodup_mkSet (l : List α) : (mkSet l).Nodup := nodup_mkSetAux l []

theorem mkSetAux_eq_self : ∀ {l seen : List α}, l.Nodup →
    (∀ x ∈ l, x ∉ seen) → mkSetAux seen l = l := by
  intro l
  induction l with
  | nil => intro seen _ _; rw [mkSetAux]
  | cons y ys ih =>
    intro seen h hdisj
    rw [mkSetAux, if_neg (hdisj y (List.mem_cons_self _ _))]
    congr 1
    refine ih (List.nodup_cons.1 h).2 ?_
    intro x hx
    intro hmem
    rcases List.mem_cons.1 hmem with rfl | hmem'
    · exact (List.nodup_cons.1 h).1 hx
    · exact hdisj x (List.mem_cons_of_mem _ hx) hmem'

theorem mkSet_eq_self {l : List α} (h : l.Nodup) : mkSet l = l :=
  mkSetAux_eq_self h (by simp)

theorem mem_sUnion {x : α} {A B : List α} :
    x ∈ sUnion A B ↔ x ∈ A ∨ x ∈ B := by
  simp only [sUnion, List.mem_append, List.mem_filter, decide_eq_true_eq]
  by_cases h : x ∈ A
  · simp [h]
  · simp [h]

theorem nodup_sUnion {A B : List α} (hA : A.Nodup) (hB : B.Nodup) :
    (sUnion A B).Nodup := by
  refine List.Nodup.append hA (hB.filter _) ?_
  intro x hx hx'
  have := (List.mem_filter.1 hx').2
  simp only [decide_eq_true_eq] at this
  exact this hx

theorem sSubB_iff {A B : List α} : sSubB A B = true ↔ ∀ x ∈ A, x ∈ B := by
  simp [sSubB, List.all_eq_true]

theorem sEqB_iff {A B : List α} :
    sEqB A B = true ↔ (∀ x ∈ A, x ∈ B) ∧ ∀ x ∈ B, x ∈ A := by
  simp [sEqB, sSubB_iff]

theorem mem_prodSet {A : List α} {B : List β} {p : α × β} :
    p ∈ prodSet A B ↔ p.1 ∈ A ∧ p.2 ∈ B := by
  cases p with
  | mk a b => simp [prodSet]

theorem mem_setSq {A : List α} {p : α × α} :
    p ∈ setSq A ↔ p.1 ∈ A ∧ p.2 ∈ A := by
  rw [setSq, mem_mkSet, mem_prodSet]

theorem combos2_mem_left {l : List α} {p : α × α} (h : p ∈ combos2 l) :
    p.1 ∈ l ∧ p.2 ∈ l := by
  induction l with
  | nil => simp [combos2] at h
  | cons x xs ih =>
    rw [combos2] at h
    rcases List.mem_append.1 h with h1 | h2
    · rcases List.mem_map.1 h1 with ⟨y, hy, hyp⟩
      subst hyp
      exact ⟨List.mem_cons_self _ _, hy⟩
    · have := ih h2
      exact ⟨List.mem_cons_of_mem _ this.1, List.mem_cons_of_mem _ this.2⟩

theorem combos3_mem {l : List α} {t : α × α × α} (h : t ∈ combos3 l) :
    t.1 ∈ l ∧ t.2.1 ∈ l ∧ t.2.2 ∈ l := by
  induction l with
  | nil => simp [combos3] at h
  | cons x xs ih =>
    rw [combos3] at h
    rcases List.mem_append.1 h with h1 | h2
    · rcases List.mem_map.1 h1 with ⟨p, hp, hpt⟩
      subst hpt
      have := combos2_mem_left hp
      exact ⟨List.mem_cons_self _ _, this.1, this.2⟩
    · have := ih h2
      exact ⟨List.mem_cons_of_mem _ this.1, List.mem_cons_of_mem _ this.2.1,
        List.mem_cons_of_mem _ this.2.2⟩

/-- Pairs of elements at nondecreasing positions are produced by `combos2`. -/
theorem combos2_mem_of_le {l : List α} {i j : ℕ} (hij : i ≤ j) (hj : j < l.length) :
    (l.get ⟨i, lt_of_le_of_lt hij hj⟩, l.get ⟨j, hj⟩) ∈ combos2 l := by
  induction l generalizing i j with
  | nil => simp at hj
  | cons x xs ih =>
    rw [combos2]
    apply List.mem_append.2
    cases i with
    | zero =>
      left
      apply List.mem_map.2
      exact ⟨(x :: xs).get ⟨j, hj⟩, List.get_mem _ _ _, rfl⟩
    | succ i' =>
      cases j with
      | zero => omega
      | succ j' =>
        right
        have hij' : i' ≤ j' := Nat.succ_le_succ_iff.1 hij
        have hj' : j' < xs.length := Nat.succ_lt_succ_iff.1 hj
        exact ih hij' hj'

end SetLemmas

/-! ## Errors

Python exception kinds raised by the toolkit, with their messages. -/

inductive PyErr : Type where
  | typeError : String → PyErr
  | valueError : String → PyErr
  | runtimeError : String → PyErr
deriving DecidableEq, Repr

/-- `Except.isOk`-style helper. -/
def isOk {ε β : Type} : Except ε β → Bool
  | .ok _ => true
  | .error _ => false

instance {ε β : Type} [DecidableEq ε] [DecidableEq β] : DecidableEq (Except ε β) :=
  fun a b =>
    match a, b with
    | .ok x, .ok y =>
      if h : x = y then .isTrue (by rw [h]) else .isFalse (fun hh => by cases hh; exact h rfl)
    | .error x, .error y =>
      if h : x = y then .isTrue (by rw [h]) else .isFalse (fun hh => by cases hh; exact h rfl)
    | .ok _, .error _ => .isFalse (fun hh => by cases hh)
    | .error _, .ok _ => .isFalse (fun hh => by cases hh)

/-! ## `algebra/function.py`

`Function(domain, codomain, function)` for the binary-operation case used
by the group code: the domain holds pairs of elements, the codomain holds
elements.  (`function.py` is untyped Python; this is its specialisation to
the only shape `group.py` uses for `bin_op`.) -/

structure BinFunc (α : Type) where
  dom : List (α × α)
  cod : List α
  fn : α × α → α

/-- `all(function(elem) in codomain for elem in domain)`. -/
def funcImageOk {α : Type} [DecidableEq α] (dom : List (α × α)) (cod : List α)
    (fn : α × α → α) : Bool :=
  dom.all (fun p => decide (fn p ∈ cod))

/-- `Function.__init__`: verify the codomain contains the image of the
domain, else `ValueError`. -/
def funcInit {α : Type} [DecidableEq α] (dom : List (α × α)) (cod : List α)
    (fn : α × α → α) : Except PyErr (BinFunc α) :=
  if funcImageOk dom cod fn = true then .ok ⟨dom, cod, fn⟩
  else .error (.valueError "Function returns a value outside of codomain.")

/-- `Function.__call__` on a pair: verify domain membership, else
`ValueError`. -/
def funcCall {α : Type} [DecidableEq α] (f : BinFunc α) (p : α × α) :
    Except PyErr α :=
  if p ∈ f.dom then .ok (f.fn p)
  else .error (.valueError "Function must be called on elements of the domain.")

/-- `Function.__eq__`: same domain, same codomain, and pointwise-equal
outputs over the domain (the `id`-shortcut in the source is an
optimisation of the same relation). -/
def funcEqB {α : Type} [DecidableEq α] (f g : BinFunc α) : Bool :=
  sEqB f.dom g.dom && sEqB f.cod g.cod &&
    f.dom.all (fun p => decide (f.fn p = g.fn p))

/-! ## `algebra/group.py`: `Group.__init__`

An `Element` compares and hashes by its underlying value alone
(`element.py`), so the frozenset `self.set` of wrapped Elements has the
same membership and iteration order as `self.elements`; the embedding
therefore keeps a single element list `set`.  Checks appear in source
order. -/

structure PyGroup (α : Type) where
  set : List α
  bin_op : BinFunc α
  e : α
  abelian : Bool
  display_order : Option (List ℕ)

/-- `elements**2 <= bin_op.domain`. -/
def domainOk {α : Type} [DecidableEq α] (els : List α) (f : BinFunc α) : Bool :=
  sSubB (setSq els) f.dom

/-- `Set(bin_op(e) for e in elements**2) <= elements`. -/
def closureOk {α : Type} [DecidableEq α] (els : List α) (f : BinFunc α) : Bool :=
  sSubB (mkSet ((setSq els).map f.fn)) els

/-- `[e for e in self.set if all(e * a == a and a * e == a for a in self.set)]`. -/
def identitiesList {α : Type} [DecidableEq α] (els : List α) (fn : α × α → α) :
    List α :=
  els.filter (fun e => els.all (fun a => decide (fn (e, a) = a) && decide (fn (a, e) = a)))

/-- `all(a * (b * c) == (a * b) * c for a, b, c in utils.combos(self.set, 3))`:
the associativity check covers only index-nondecreasing triples. -/
def assocOk {α : Type} [DecidableEq α] (els : List α) (fn : α × α → α) : Bool :=
  (combos3 els).all (fun t => decide (fn (t.1, fn (t.2.1, t.2.2)) = fn (fn (t.1, t.2.1), t.2.2)))

/-- `len(Set(a for a in self.set if any(a * b == self.e for b in self.set))) != len(elements)`
(negated): every element has a right inverse. -/
def inversesOk {α : Type} [DecidableEq α] (els : List α) (fn : α × α → α) (e : α) : Bool :=
  decide ((els.filter (fun a => els.any (fun b => decide (fn (a, b) = e)))).length = els.length)

/-- `all(a * b == b * a for a, b in utils.combos(self.set, 2))`. -/
def abelianB {α : Type} [DecidableEq α] (els : List α) (fn : α × α → α) : Bool :=
  (combos2 els).all (fun p => decide (fn (p.1, p.2) = fn (p.2, p.1)))

/-- `list(self.set).index(a)`: position of the first occurrence (callers
guarantee presence; absent elements would raise in Python and map to the
out-of-range index `length` here). -/
def idxOf {α : Type} [DecidableEq α] (a : α) : List α → ℕ
  | [] => 0
  | x :: xs => if x = a then 0 else idxOf a xs + 1

/-- The display-order step at the end of `Group.__init__`: validate the
ordered elements against the element set and record the index mapping. -/
def displayStep {α : Type} [DecidableEq α] (els : List α) (f : BinFunc α)
    (e : α) : Option (List α) → Except PyErr (PyGroup α)
  | none => .ok ⟨els, f, e, abelianB els f.fn, none⟩
  | some ord =>
    if ¬ (sEqB (mkSet ord) els = true) then
      .error (.valueError "The sets of ordered and unordered elements do not match.")
    else .ok ⟨els, f, e, abelianB els f.fn, some (ord.map (fun a => idxOf a els))⟩

/-- `Group.__init__(elements, bin_op, display_order, skip_checks)`.  Checks
run in source order: domain, closure, identity count, associativity over
`combos(set, 3)` (unless skipped), right inverses, then the Abelian flag
and the optional display order. -/
def groupInit {α : Type} [DecidableEq α] (els : List α) (f : BinFunc α)
    (d : Option (List α)) (skip_checks : Bool) : Except PyErr (PyGroup α) :=
  if ¬ (domainOk els f = true) then
    .error (.valueError "The binary operation must have all element pairs in its domain.")
  else if ¬ (closureOk els f = true) then
    .error (.valueError "The elements must be closed under the binary operation.")
  else
    match identitiesList els f.fn with
    | [] => .error (.valueError "The group must have an identity element.")
    | _ :: _ :: _ => .error (.runtimeError "REPORT THIS ERROR: There are multiple identity elements.")
    | [e] =>
      if skip_checks = false ∧ ¬ (assocOk els f.fn = true) then
        .error (.valueError "The binary operation is not associative.")
      else if ¬ (inversesOk els f.fn e = true) then
        .error (.valueError "Some elements are missing inverses!")
      else displayStep els f e d

/-- `Group.__iter__`: the display order if set, else the identity first
followed by the remaining elements in set order. -/
def groupIter {α : Type} [DecidableEq α] (g : PyGroup α) : List α :=
  match g.display_order with
  | some idxs => idxs.filterMap (fun i => g.set.get? i)
  | none => g.e :: g.set.filter (fun a => decide (a ≠ g.e))

/-- `Element.__mul__` for two elements of the same group:
`Element(self.group.bin_op(self.elem, elem.elem), self.group)` — a
`bin_op` domain check followed by the `Element.__init__` membership
check. -/
def groupMul {α : Type} [DecidableEq α] (g : PyGroup α) (a b : α) :
    Except PyErr α :=
  match funcCall g.bin_op (a, b) with
  | .error err => .error err
  | .ok r =>
    if r ∈ g.set then .ok r
    else .error (.valueError "The element is not in the group.")

/-- `Group.invert`: check membership, then return the first `a` in
iteration order with `element * a == self.e`. -/
def invert {α : Type} [DecidableEq α] (g : PyGroup α) (x : α) : Except PyErr α :=
  if ¬ (x ∈ g.set) then .error (.valueError "The element is not in the Group.")
  else
    match (groupIter g).find? (fun a => decide (g.bin_op.fn (x, a) = g.e)) with
    | some a => .ok a
    | none => .error (.runtimeError "Something is wrong--this element has no inverse!")

/-! ## `Group.generate` and `Group.subgroups`

The Python `while` loops run to a fixed point; here they carry explicit
fuel and return `none` if the fuel runs out before the fixed point, so a
`some` result certifies the loop really stabilised.  Products inside the
loops use `bin_op` directly: for any successfully constructed group the
domain and closure checks of `Group.__init__` guarantee the `Element`
product checks cannot fire. -/

/-- The closure loop of `generate`:
`while old_set != new_set: old_set = old_set | new_set;`
`new_set = old_set | Set(a*b for a, b in utils.combos(old_set, 2))`. -/
def genLoop {α : Type} [DecidableEq α] (fn : α × α → α) :
    ℕ → List α → List α → Option (List α)
  | 0, _, _ => none
  | fuel + 1, old, new =>
    if sEqB old new then some new
    else
      let old' := sUnion old new
      let new' := sUnion old' (mkSet ((combos2 old').map fn))
      genLoop fn fuel old' new'

/-- `Group.generate(elements)`: reject an empty seed, convert the seed to
group Elements (membership check), run the closure loop, and hand the
result to `Group.__init__` with the same `bin_op`. -/
def generate {α : Type} [DecidableEq α] (g : PyGroup α) (seed : List α) :
    Except PyErr (PyGroup α) :=
  if seed.length = 0 then .error (.valueError "Elements must be a non-empty iterable.")
  else if ¬ (seed.all (fun s => decide (s ∈ g.set)) = true) then
    .error (.valueError "The element is not in the group.")
  else
    match genLoop g.bin_op.fn (2 * g.set.length + 4) (mkSet seed) [] with
    | none => .error (.runtimeError "closure loop did not stabilise")
    | some t => groupInit t g.bin_op none false

/-- `Group.__eq__`: equal `bin_op` and equal element set (the `id`
shortcut in the source is an optimisation of the same relation). -/
def groupEqB {α : Type} [DecidableEq α] (g h : PyGroup α) : Bool :=
  funcEqB g.bin_op h.bin_op && sEqB g.set h.set

/-- Membership in a frozenset of `Group` objects (dedup by `Group.__eq__`). -/
def memGrpB {α : Type} [DecidableEq α] (g : PyGroup α) (l : List (PyGroup α)) : Bool :=
  l.any (fun h => groupEqB g h)

/-- `Set(iterable)` over `Group` objects. -/
def mkSetGrp {α : Type} [DecidableEq α] : List (PyGroup α) → List (PyGroup α)
  | [] => []
  | g :: gs => if memGrpB g gs then mkSetGrp gs else g :: mkSetGrp gs

/-- Frozenset union over `Group` objects. -/
def sUnionGrp {α : Type} [DecidableEq α] (A B : List (PyGroup α)) : List (PyGroup α) :=
  A ++ B.filter (fun g => ¬ memGrpB g A)

/-- Frozenset equality over `Group` objects. -/
def sEqGrpB {α : Type} [DecidableEq α] (A B : List (PyGroup α)) : Bool :=
  A.all (fun g => memGrpB g B) && B.all (fun g => memGrpB g A)

/-- One pass of the `subgroups` comprehension:
`Set(self.generate(grp.set|{elem}) for grp in old_set for elem in self if elem not in grp)`. -/
def sgStep {α : Type} [DecidableEq α] (g : PyGroup α) (old : List (PyGroup α)) :
    Except PyErr (List (PyGroup α)) :=
  (old.flatMap (fun grp =>
      ((groupIter g).filter (fun x => decide (x ∉ grp.set))).map (fun x => (grp, x)))).mapM
    (fun gx => generate g (sUnion gx.1.set [gx.2]))

/-- The `subgroups` fixed-point loop, with fuel. -/
def sgLoop {α : Type} [DecidableEq α] (g : PyGroup α) :
    ℕ → List (PyGroup α) → List (PyGroup α) → Except PyErr (Option (List (PyGroup α)))
  | 0, _, _ => .ok none
  | fuel + 1, old, new =>
    if sEqGrpB old new then .ok (some new)
    else
      match sgStep g (sUnionGrp old new) with
      | .error err => .error err
      | .ok gens =>
        let old' := sUnionGrp old new
        sgLoop g fuel old' (sUnionGrp old' (mkSetGrp gens))

/-- `Group.subgroups()`: start from the trivial subgroup `generate([e])`,
repeatedly extend every known subgroup by each outside element. -/
def subgroups {α : Type} [DecidableEq α] (g : PyGroup α) :
    Except PyErr (Option (List (PyGroup α))) :=
  match generate g [g.e] with
  | .error err => .error err
  | .ok t => sgLoop g 12 [t] []

/-! ## `Element.order` and `Group.is_cyclic`

`Group.is_cyclic` calls `e.order()`, but `Element.order` exists in
`element.py` only as a commented-out TODO, so the call raises
`AttributeError` on every group.  Modelled from the spec: the missing
`Element.order` is "the order of self in the Group",
`len(self.group.generate([self]))`, and `is_cyclic` is true iff some
element's order equals the group's order. -/

def orderModel {α : Type} [DecidableEq α] (g : PyGroup α) (x : α) : Except PyErr ℕ :=
  match generate g [x] with
  | .error err => .error err
  | .ok h => .ok h.set.length

/-- `any(e.order() == len(self) for e in self)`, with the spec-modelled
`order`. -/
def isCyclicModel {α : Type} [DecidableEq α] (g : PyGroup α) : Except PyErr Bool :=
  match (groupIter g).mapM (fun x => orderModel g x) with
  | .error err => .error err
  | .ok ords => .ok (ords.any (fun o => decide (o = g.set.length)))

/-! ## Archetype constructors -/

/-- `Zn(n)`: elements `Set(range(n))`, operation
`Function(elems**2, elems, lambda x: (x[0] + x[1]) % n)`. -/
def Zn (n : ℕ) : Except PyErr (PyGroup ℕ) :=
  let elems := mkSet (List.range n)
  match funcInit (setSq elems) elems (fun p => (p.1 + p.2) % n) with
  | .error err => .error err
  | .ok f => groupInit elems f none false

/-!
Dihedral-group elements are Python strings such as `"r3"` or `"r3s"`;
they are embedded as lists of character code points (`'r' = 114`,
`'s' = 115`, `'0' = 48` … `'9' = 57`).
-/

/-- Decimal digits of `k` as character codes, most significant first
(`str(k)`); the first argument is structural fuel, always sufficient at
`k + 1`. -/
def decDigitsAux : ℕ → ℕ → List ℕ
  | 0, _ => []
  | fuel + 1, k => if k < 10 then [k + 48] else decDigitsAux fuel (k / 10) ++ [k % 10 + 48]

/-- `str(k)` as character codes. -/
def natStr (k : ℕ) : List ℕ := decDigitsAux (k + 1) k

/-- The rotation string `f"r{k}"`. -/
def rStr (k : ℕ) : List ℕ := 114 :: natStr k

/-- The flip string `f"r{k}s"`. -/
def rsStr (k : ℕ) : List ℕ := rStr k ++ [115]

/-- `int(y[-1] == 's')` from `multiply_rots_and_flips`. -/
def dnIsFlip (y : List ℕ) : Bool := y.getLast? = some 115

/-- `int(y[1])` from `multiply_rots_and_flips`: the digit character at
index 1, i.e. only the FIRST digit of a multi-digit rotation amount
(every element string has a digit there). -/
def dnRot (y : List ℕ) : ℕ :=
  match y.get? 1 with
  | some c => c - 48
  | none => 0

/-- `multiply_rots_and_flips` of `Dn(n)` (the right element is the first
operation); `%` on possibly negative rotation differences is Python's
nonnegative modulo, `Int.emod`. -/
def dnFn (n : ℕ) (x : List ℕ × List ℕ) : List ℕ :=
  let s1 := dnIsFlip x.1
  let s2 := dnIsFlip x.2
  let r1 := dnRot x.1
  let r2 := dnRot x.2
  if s2 then
    if s1 then rStr ((((r1 : ℤ) - r2) % (n : ℤ)).toNat)
    else rsStr ((((r1 : ℤ) + r2) % (n : ℤ)).toNat)
  else
    if s1 then rsStr ((((r1 : ℤ) - r2) % (n : ℤ)).toNat)
    else rStr ((((r1 : ℤ) + r2) % (n : ℤ)).toNat)

/-- `ordered_elems = [elem%r for elem in ("r%s", "r%ss") for r in range(n)]`. -/
def dnOrdered (n : ℕ) : List (List ℕ) :=
  (List.range n).map rStr ++ (List.range n).map rsStr

/-- `Dn(n)`: dihedral group of order `2n`, constructed with
`ordered_elems` as the display order. -/
def Dn (n : ℕ) : Except PyErr (PyGroup (List ℕ)) :=
  let elems := mkSet (dnOrdered n)
  match funcInit (setSq elems) elems (dnFn n) with
  | .error err => .error err
  | .ok f => groupInit elems f (some (dnOrdered n)) false

/-! ## `Set.__mul__` / `Set.__pow__` on self-nesting values (C8)

Python sets are untyped, and `power` nests pairs (`A**3` holds pairs of
pairs), so the general `Set.__mul__`/`Set.__pow__` are embedded over a
self-nesting value type. -/

inductive SVal (α : Type) : Type where
  | base : α → SVal α
  | pr : SVal α → SVal α → SVal α
deriving DecidableEq

/-- `Set.__mul__`: `Set((x, y) for x in self for y in other_set)`. -/
def set_mul {α : Type} [DecidableEq α] (A B : List (SVal α)) : List (SVal α) :=
  mkSet (A.flatMap (fun x => B.map (fun y => SVal.pr x y)))

/-- The `for i in range(exponent-1): set_prod *= self` loop of
`Set.__pow__`. -/
def powLoop {α : Type} [DecidableEq α] (A : List (SVal α)) :
    ℕ → List (SVal α) → List (SVal α)
  | 0, acc => acc
  | k + 1, acc => powLoop A k (set_mul acc A)

/-- `Set.__pow__(exponent)`: `ValueError` for `exponent < 1`, else the
repeated Cartesian product wrapped in `Set(...)`. -/
def set_pow {α : Type} [DecidableEq α] (A : List (SVal α)) (n : ℤ) :
    Except PyErr (List (SVal α)) :=
  if n < 1 then .error (.valueError "The exponent must be at least 1.")
  else .ok (mkSet (powLoop A (n - 1).toNat A))

/-! ## `Element.__eq__` / `__ne__` / `__hash__` (C9)

An `Element` carries a value and a reference to its owning group (embedded
as a group id); the values an Element can be compared against are other
Elements, raw underlying values, or anything else. -/

inductive PyObj (α : Type) : Type where
  | elObj : α → ℕ → PyObj α
  | rawObj : α → PyObj α
  | otherObj : PyObj α
deriving DecidableEq

def PyObj.isElement {α : Type} : PyObj α → Bool
  | .elObj _ _ => true
  | _ => false

/-- `Element.__eq__`: `TypeError` unless the other operand is an Element,
else equality of the underlying values (owning groups ignored). -/
def elementEq {α : Type} [DecidableEq α] (selfVal : α) (selfGid : ℕ)
    (other : PyObj α) : Except PyErr Bool :=
  match other with
  | .elObj w _ => .ok (decide (selfVal = w))
  | _ => .error (.typeError "The other_elem must be an Element!")

/-- `Element.__ne__`: `not self == other` (propagates the `TypeError`). -/
def elementNe {α : Type} [DecidableEq α] (selfVal : α) (selfGid : ℕ)
    (other : PyObj α) : Except PyErr Bool :=
  match elementEq selfVal selfGid other with
  | .ok b => .ok (!b)
  | .error err => .error err

/-- `Element.__hash__`: `hash(self.elem)`, for an arbitrary hash function
on underlying values. -/
def elementHash {α : Type} (h : α → ℕ) (selfVal : α) (selfGid : ℕ) : ℕ :=
  h selfVal

/-! ## `Function.__call__` argument packing (C10)

The generic `Function` of `function.py`, whose domain can hold arbitrary
(tuple-nesting) values; `__call__(*elem)` packs multiple arguments into a
tuple and unpacks a single argument. -/

inductive TVal (α : Type) : Type where
  | base : α → TVal α
  | tup : List (TVal α) → TVal α

/-- Structural equality on Python values (tuples compare pointwise). -/
def tvalBeq {α : Type} [DecidableEq α] : TVal α → TVal α → Bool
  | .base a, .base b => decide (a = b)
  | .tup [], .tup [] => true
  | .tup (x :: xs), .tup (y :: ys) => tvalBeq x y && tvalBeq (.tup xs) (.tup ys)
  | _, _ => false

structure PyFunc (α : Type) where
  dom : List (TVal α)
  cod : List (TVal α)
  fn : TVal α → TVal α

/-- `if len(elem) == 1: elem = elem[0]`: a single call argument is used
as-is, multiple call arguments stay packed as one tuple. -/
def packArgs {α : Type} : List (TVal α) → TVal α
  | [x] => x
  | xs => TVal.tup xs

/-- `Function.__call__(*elem)`: pack the arguments, then the
domain-membership check runs, then the mapping is applied. -/
def functionCall {α : Type} [DecidableEq α] (f : PyFunc α) (args : List (TVal α)) :
    Except PyErr (TVal α) :=
  if f.dom.any (fun d => tvalBeq (packArgs args) d) then .ok (f.fn (packArgs args))
  else .error (.valueError "Function must be called on elements of the domain.")

/-! ## Supporting lemmas for C8 -/

theorem nodup_set_mul_list {α : Type} [DecidableEq α] {A B : List (SVal α)}
    (hA : A.Nodup) (hB : B.Nodup) :
    (A.flatMap (fun x => B.map (fun y => SVal.pr x y))).Nodup := by
  refine List.nodup_flatMap.2 ⟨?_, ?_⟩
  · intro x _
    exact hB.map (fun y z h => by cases h; rfl)
  · refine hA.imp ?_
    intro a₁ a₂ hne
    intro l h₁ h₂
    rcases List.mem_map.1 h₁ with ⟨b₁, _, rfl⟩
    rcases List.mem_map.1 h₂ with ⟨b₂, _, h⟩
    cases h
    exact hne rfl

theorem set_mul_length {α : Type} [DecidableEq α] {A B : List (SVal α)}
    (hA : A.Nodup) (hB : B.Nodup) :
    (set_mul A B).length = A.length * B.length := by
  rw [set_mul, mkSet_eq_self (nodup_set_mul_list hA hB), List.length_flatMap]
  simp only [Function.comp_def, List.length_map]
  have key : ∀ l : List (SVal α), (l.map (fun _ => B.length)).sum = l.length * B.length := by
    intro l
    induction l with
    | nil => simp
    | cons x xs ih =>
      simp only [List.map_cons, List.sum_cons, List.length_cons, ih]
      ring
  exact key A

/-- C8: for FiniteSets `A` and `B` (duplicate-free by the Set invariant),
the Cartesian product has size `|A| * |B|`, `A.power(1)` equals `A`,
`A.power(2)` equals `A.product(A)`, and `A.power(n)` fails with a
`ValueError` for every `n < 1`, in particular `n = 0`. -/
theorem c8_set_product_power {α : Type} [DecidableEq α] (A B : List (SVal α))
    (hA : A.Nodup) (hB : B.Nodup) :
    (set_mul A B).length = A.length * B.length
    ∧ set_pow A 1 = .ok A
    ∧ set_pow A 2 = .ok (set_mul A A)
    ∧ ∀ n : ℤ, n < 1 →
        set_pow A n = .error (.valueError "The exponent must be at least 1.") := by
  refine ⟨set_mul_length hA hB, ?_, ?_, ?_⟩
  · show set_pow A 1 = .ok A
    rw [set_pow]
    norm_num
    exact mkSet_eq_self hA
  · show set_pow A 2 = .ok (set_mul A A)
    rw [set_pow]
    norm_num
    exact mkSet_eq_self (nodup_mkSet _)
  · intro n hn
    rw [set_pow, if_pos hn]

theorem c8_witness :
    (set_mul [SVal.base 0, SVal.base 1] [SVal.base (2 : ℕ)]).length =
      ([SVal.base 0, SVal.base 1] : List (SVal ℕ)).length * [SVal.base (2 : ℕ)].length
    ∧ set_pow ([SVal.base 0, SVal.base 1] : List (SVal ℕ)) 1 = .ok [SVal.base 0, SVal.base 1]
    ∧ set_pow ([SVal.base 0, SVal.base 1] : List (SVal ℕ)) 2 =
        .ok (set_mul [SVal.base 0, SVal.base 1] [SVal.base 0, SVal.base 1])
    ∧ set_pow ([SVal.base 0, SVal.base 1] : List (SVal ℕ)) 0 =
        .error (.valueError "The exponent must be at least 1.") := by
  have h := c8_set_product_power [SVal.base 0, SVal.base 1] [SVal.base (2 : ℕ)]
    (by decide) (by decide)
  exact ⟨h.1, h.2.1, h.2.2.1, h.2.2.2 0 (by decide)⟩

/-- C9: comparing an Element (with `==` or `!=`) against any non-Element
value — including the Element's own raw underlying value — raises a
`TypeError` rather than returning false; between two Elements, equality
and hash depend only on the underlying values, never on the owning
groups. -/
theorem c9_element_eq_hash {α : Type} [DecidableEq α] (v : α) (gid : ℕ) :
    (∀ o : PyObj α, o.isElement = false →
        elementEq v gid o = .error (.typeError "The other_elem must be an Element!")
        ∧ elementNe v gid o = .error (.typeError "The other_elem must be an Element!"))
    ∧ elementEq v gid (.rawObj v) = .error (.typeError "The other_elem must be an Element!")
    ∧ (∀ w : α, ∀ gid' : ℕ, elementEq v gid (.elObj w gid') = .ok (decide (v = w)))
    ∧ (∀ h : α → ℕ, ∀ gid' : ℕ, elementHash h v gid = elementHash h v gid') := by
  refine ⟨?_, rfl, fun w gid' => rfl, fun h gid' => rfl⟩
  intro o ho
  cases o with
  | elObj w g => simp [PyObj.isElement] at ho
  | rawObj w => exact ⟨rfl, rfl⟩
  | otherObj => exact ⟨rfl, rfl⟩

theorem c9_witness :
    elementEq (5 : ℕ) 0 (.rawObj 5) = .error (.typeError "The other_elem must be an Element!")
    ∧ elementNe (5 : ℕ) 0 (.rawObj 5) = .error (.typeError "The other_elem must be an Element!")
    ∧ elementEq (5 : ℕ) 0 (.elObj 5 7) = .ok true := by
  have h := c9_element_eq_hash (5 : ℕ) 0
  exact ⟨(h.1 (.rawObj 5) (by decide)).1, (h.1 (.rawObj 5) (by decide)).2,
    by rw [h.2.2.1 5 7]; rfl⟩

theorem tvalBeq_of_eq {α : Type} [DecidableEq α] :
    ∀ x y : TVal α, x = y → tvalBeq x y = true := by
  intro x y
  induction x, y using tvalBeq.induct with
  | case1 a b => intro h; cases h; simp [tvalBeq]
  | case2 => intro h; rw [tvalBeq]
  | case3 x xs y ys ih1 ih2 =>
    intro h
    injection h with h'
    injection h' with h1 h2
    subst h1; subst h2
    rw [tvalBeq, ih1 rfl, ih2 rfl]
    rfl
  | case4 x y h1 h2 h3 =>
    intro h
    subst h
    cases x with
    | base a => exact (h1 a a rfl rfl).elim
    | tup l =>
      cases l with
      | nil => exact (h2 rfl rfl).elim
      | cons z zs => exact (h3 z zs z zs rfl rfl).elim

/-- C10: for every Function `f` and every pair `(a, b)` in its domain,
calling with two arguments gives the same result as calling with the
packed tuple: multiple call arguments are packed into one tuple before
the domain-membership check, and a single argument is used as-is. -/
theorem c10_call_packing {α : Type} [DecidableEq α] (f : PyFunc α) (a b : TVal α)
    (hdom : f.dom.any (fun d => tvalBeq (TVal.tup [a, b]) d) = true) :
    functionCall f [a, b] = .ok (f.fn (.tup [a, b]))
    ∧ functionCall f [.tup [a, b]] = .ok (f.fn (.tup [a, b])) := by
  have hp2 : packArgs [a, b] = TVal.tup [a, b] := rfl
  have hp1 : packArgs [TVal.tup [a, b]] = TVal.tup [a, b] := rfl
  constructor <;> · simp only [functionCall, hp1, hp2, hdom, if_true]

theorem c10_witness :
    functionCall (⟨[TVal.tup [TVal.base 0, TVal.base 1]], [TVal.base (0 : ℕ)],
        fun _ => TVal.base 0⟩ : PyFunc ℕ) [TVal.base 0, TVal.base 1] =
      .ok (TVal.base 0)
    ∧ functionCall (⟨[TVal.tup [TVal.base 0, TVal.base 1]], [TVal.base (0 : ℕ)],
        fun _ => TVal.base 0⟩ : PyFunc ℕ) [TVal.tup [TVal.base 0, TVal.base 1]] =
      .ok (TVal.base 0) := by
  have h := c10_call_packing (⟨[TVal.tup [TVal.base 0, TVal.base 1]],
    [TVal.base (0 : ℕ)], fun _ => TVal.base 0⟩ : PyFunc ℕ)
    (TVal.base 0) (TVal.base 1)
    (by simp [List.any_cons, tvalBeq_of_eq _ _ rfl])
  exact h

/-! ## Structural facts about `groupInit` -/

theorem sSubB_self {α : Type} [DecidableEq α] (A : List α) : sSubB A A = true :=
  sSubB_iff.2 (fun _ hx => hx)

theorem sEqB_self {α : Type} [DecidableEq α] (A : List α) : sEqB A A = true :=
  sEqB_iff.2 ⟨fun _ hx => hx, fun _ hx => hx⟩

/-- When `bin_op.domain` is literally `elements**2`, the domain check
holds by reflexivity of the subset test. -/
theorem domainOk_of_sq {α : Type} [DecidableEq α] (els : List α) (cod : List α)
    (fn : α × α → α) : domainOk els ⟨setSq els, cod, fn⟩ = true :=
  sSubB_self _

/-- `Group.__init__` succeeds (without a display order) when every check
passes, and returns the record the source stores. -/
theorem groupInit_eq_ok_none {α : Type} [DecidableEq α] {els : List α}
    {f : BinFunc α} {skip : Bool} {e : α}
    (h1 : domainOk els f = true) (h2 : closureOk els f = true)
    (h3 : identitiesList els f.fn = [e])
    (h4 : skip = false → assocOk els f.fn = true)
    (h5 : inversesOk els f.fn e = true) :
    groupInit els f none skip = .ok ⟨els, f, e, abelianB els f.fn, none⟩ := by
  rw [groupInit, if_neg (by rw [h1]; exact fun h => h rfl), if_neg (by rw [h2]; exact fun h => h rfl)]
  simp only [h3]
  have hskip : ¬ (skip = false ∧ ¬ (assocOk els f.fn = true)) := by
    rintro ⟨hs, ha⟩
    exact ha (h4 hs)
  rw [if_neg hskip, if_neg (by rw [h5]; exact fun h => h rfl), displayStep]

/-- `Group.__init__` succeeds with a display order when every check
passes and the ordered elements agree with the element set. -/
theorem groupInit_eq_ok_some {α : Type} [DecidableEq α] {els : List α}
    {f : BinFunc α} {skip : Bool} {e : α} {ord : List α}
    (h1 : domainOk els f = true) (h2 : closureOk els f = true)
    (h3 : identitiesList els f.fn = [e])
    (h4 : skip = false → assocOk els f.fn = true)
    (h5 : inversesOk els f.fn e = true)
    (h6 : sEqB (mkSet ord) els = true) :
    groupInit els f (some ord) skip =
      .ok ⟨els, f, e, abelianB els f.fn, some (ord.map (fun a => idxOf a els))⟩ := by
  rw [groupInit, if_neg (by rw [h1]; exact fun h => h rfl), if_neg (by rw [h2]; exact fun h => h rfl)]
  simp only [h3]
  have hskip : ¬ (skip = false ∧ ¬ (assocOk els f.fn = true)) := by
    rintro ⟨hs, ha⟩
    exact ha (h4 hs)
  rw [if_neg hskip, if_neg (by rw [h5]; exact fun h => h rfl), displayStep,
    if_neg (by rw [h6]; exact fun h => h rfl)]

/-- Inversion: every field and every check of a successfully constructed
group. -/
theorem groupInit_ok_inv {α : Type} [DecidableEq α] {els : List α}
    {f : BinFunc α} {d : Option (List α)} {skip : Bool} {G : PyGroup α}
    (h : groupInit els f d skip = .ok G) :
    G.set = els ∧ G.bin_op = f ∧ domainOk els f = true ∧ closureOk els f = true
    ∧ identitiesList els f.fn = [G.e]
    ∧ (skip = false → assocOk els f.fn = true)
    ∧ inversesOk els f.fn G.e = true := by
  rw [groupInit] at h
  by_cases h1 : domainOk els f = true
  case neg => rw [if_pos (fun hh => h1 hh)] at h; exact absurd h (by simp)
  rw [if_neg (fun hh => hh h1)] at h
  by_cases h2 : closureOk els f = true
  case neg => rw [if_pos (fun hh => h2 hh)] at h; exact absurd h (by simp)
  rw [if_neg (fun hh => hh h2)] at h
  rcases hid : identitiesList els f.fn with _ | ⟨e, _ | ⟨e', rest⟩⟩
  · simp only [hid] at h; exact absurd h (by simp)
  · simp only [hid] at h
    by_cases h4 : skip = false ∧ ¬ (assocOk els f.fn = true)
    case pos => rw [if_pos h4] at h; exact absurd h (by simp)
    rw [if_neg h4] at h
    by_cases h5 : inversesOk els f.fn e = true
    case neg => rw [if_pos h5] at h; exact absurd h (by simp)
    rw [if_neg (fun hh => hh h5)] at h
    have hskip : skip = false → assocOk els f.fn = true := by
      intro hs
      by_contra ha
      exact h4 ⟨hs, ha⟩
    cases d with
    | none =>
      rw [displayStep] at h
      have hG : G = ⟨els, f, e, abelianB els f.fn, none⟩ := by
        cases h; rfl
      subst hG
      exact ⟨rfl, rfl, h1, h2, rfl, hskip, h5⟩
    | some ord =>
      rw [displayStep] at h
      by_cases h6 : sEqB (mkSet ord) els = true
      case neg => rw [if_pos (fun hh => h6 hh)] at h; exact absurd h (by simp)
      rw [if_neg (fun hh => hh h6)] at h
      have hG : G = ⟨els, f, e, abelianB els f.fn,
          some (ord.map (fun a => idxOf a els))⟩ := by
        cases h; rfl
      subst hG
      exact ⟨rfl, rfl, h1, h2, rfl, hskip, h5⟩
  · simp only [hid] at h; exact absurd h (by simp)

/-! ## C7: the dihedral constructor -/

/-- `Group.__init__` raises the identity `ValueError` when the domain and
closure checks pass but no identity is found. -/
theorem groupInit_eq_error_identity {α : Type} [DecidableEq α] {els : List α}
    {f : BinFunc α} {d : Option (List α)} {skip : Bool}
    (h1 : domainOk els f = true) (h2 : closureOk els f = true)
    (hid : identitiesList els f.fn = []) :
    groupInit els f d skip =
      .error (.valueError "The group must have an identity element.") := by
  rw [groupInit, if_neg (by rw [h1]; exact fun h => h rfl),
    if_neg (by rw [h2]; exact fun h => h rfl)]
  simp only [hid]

/-- `Dn(n)` unfolds to the group record once each construction check is
supplied (the domain check holds by reflexivity, the display order is the
element list itself). -/
theorem Dn_eq_ok {n : ℕ} {e : List ℕ}
    (him : funcImageOk (setSq (mkSet (dnOrdered n))) (mkSet (dnOrdered n)) (dnFn n) = true)
    (hcl : closureOk (mkSet (dnOrdered n))
      ⟨setSq (mkSet (dnOrdered n)), mkSet (dnOrdered n), dnFn n⟩ = true)
    (hid : identitiesList (mkSet (dnOrdered n)) (dnFn n) = [e])
    (has : assocOk (mkSet (dnOrdered n)) (dnFn n) = true)
    (hinv : inversesOk (mkSet (dnOrdered n)) (dnFn n) e = true) :
    Dn n = .ok ⟨mkSet (dnOrdered n),
      ⟨setSq (mkSet (dnOrdered n)), mkSet (dnOrdered n), dnFn n⟩, e,
      abelianB (mkSet (dnOrdered n)) (dnFn n),
      some ((dnOrdered n).map (fun a => idxOf a (mkSet (dnOrdered n))))⟩ := by
  rw [Dn]
  rw [funcInit, if_pos him]
  exact groupInit_eq_ok_some (domainOk_of_sq _ _ _) hcl hid (fun _ => has) hinv
    (sEqB_self _)

/-- `Dn(n)` fails with the identity `ValueError` when the closure check
passes but no element acts as an identity. -/
theorem Dn_eq_error_identity {n : ℕ}
    (him : funcImageOk (setSq (mkSet (dnOrdered n))) (mkSet (dnOrdered n)) (dnFn n) = true)
    (hcl : closureOk (mkSet (dnOrdered n))
      ⟨setSq (mkSet (dnOrdered n)), mkSet (dnOrdered n), dnFn n⟩ = true)
    (hid : identitiesList (mkSet (dnOrdered n)) (dnFn n) = []) :
    Dn n = .error (.valueError "The group must have an identity element.") := by
  rw [Dn]
  rw [funcInit, if_pos him]
  exact groupInit_eq_error_identity (domainOk_of_sq _ _ _) hcl hid


/-! ## Symbolic facts about the dihedral element strings -/

theorem decDigitsAux_small {fuel m : ℕ} (hm : m < 10) (hf : 0 < fuel) :
    decDigitsAux fuel m = [m + 48] := by
  cases fuel with
  | zero => omega
  | succ f => rw [decDigitsAux, if_pos hm]

theorem natStr_lt10 {k : ℕ} (h : k < 10) : natStr k = [k + 48] :=
  decDigitsAux_small h (Nat.succ_pos _)

theorem natStr_lt100 {k : ℕ} (h10 : 10 ≤ k) (h : k < 100) :
    natStr k = [k / 10 + 48, k % 10 + 48] := by
  rw [natStr, decDigitsAux, if_neg (by omega)]
  rw [decDigitsAux_small (by omega) (by omega)]
  rfl

theorem decDigitsAux_digits : ∀ (fuel k : ℕ), ∀ c ∈ decDigitsAux fuel k,
    48 ≤ c ∧ c ≤ 57 := by
  intro fuel
  induction fuel with
  | zero => intro k c hc; rw [decDigitsAux] at hc; cases hc
  | succ f ih =>
    intro k c hc
    rw [decDigitsAux] at hc
    by_cases h10 : k < 10
    · rw [if_pos h10] at hc
      rcases List.mem_singleton.1 hc with rfl
      omega
    · rw [if_neg h10] at hc
      rcases List.mem_append.1 hc with h1 | h2
      · exact ih (k / 10) c h1
      · rcases List.mem_singleton.1 h2 with rfl
        omega

theorem natStr_digits {k : ℕ} : ∀ c ∈ natStr k, 48 ≤ c ∧ c ≤ 57 :=
  decDigitsAux_digits (k + 1) k

theorem natStr_ne_nil {k : ℕ} : natStr k ≠ [] := by
  rw [natStr, decDigitsAux]
  by_cases h10 : k < 10
  · rw [if_pos h10]; simp
  · rw [if_neg h10]
    intro hcontra
    rcases List.append_eq_nil.1 hcontra with ⟨-, h2⟩
    cases h2

theorem rStr_eq {k : ℕ} (h : k < 10) : rStr k = [114, k + 48] := by
  rw [rStr, natStr_lt10 h]

theorem rsStr_eq {k : ℕ} (h : k < 10) : rsStr k = [114, k + 48, 115] := by
  rw [rsStr, rStr_eq h]
  rfl

theorem dnIsFlip_rStr (k : ℕ) : dnIsFlip (rStr k) = false := by
  rw [dnIsFlip, rStr]
  have hne := natStr_ne_nil (k := k)
  have h1 : (114 :: natStr k).getLast? = (natStr k).getLast? := by
    rw [show (114 :: natStr k) = [114] ++ natStr k from rfl]
    exact List.getLast?_append_of_ne_nil _ hne
  rw [h1, List.getLast?_eq_getLast_of_ne_nil hne]
  have hmem := List.getLast_mem hne
  have := natStr_digits _ hmem
  simp only [Option.some.injEq, decide_eq_false_iff_not]
  omega

theorem dnIsFlip_rsStr (k : ℕ) : dnIsFlip (rsStr k) = true := by
  rw [dnIsFlip, rsStr, List.getLast?_concat]
  simp

theorem rStr_ne_rsStr {k j : ℕ} : rStr k ≠ rsStr j := by
  intro h
  have := dnIsFlip_rStr k
  rw [h, dnIsFlip_rsStr] at this
  cases this

theorem rStr_inj {k j : ℕ} (hk : k < 10) (hj : j < 10) (h : rStr k = rStr j) :
    k = j := by
  rw [rStr_eq hk, rStr_eq hj] at h
  simp at h
  omega

theorem rsStr_inj {k j : ℕ} (hk : k < 10) (hj : j < 10) (h : rsStr k = rsStr j) :
    k = j := by
  rw [rsStr_eq hk, rsStr_eq hj] at h
  simp at h
  omega

theorem dnRot_rStr {k : ℕ} (h : k < 10) : dnRot (rStr k) = k := by
  rw [dnRot, rStr_eq h]
  simp

theorem dnRot_rsStr {k : ℕ} (h : k < 10) : dnRot (rsStr k) = k := by
  rw [dnRot, rsStr_eq h]
  simp

theorem dnRot_rStr_2dig {k : ℕ} (h10 : 10 ≤ k) (h : k < 100) :
    dnRot (rStr k) = k / 10 := by
  rw [dnRot, rStr, natStr_lt100 h10 h]
  simp

/-! Product shapes of `multiply_rots_and_flips`, from the flip flags alone. -/

theorem dnFn_rr (n k j : ℕ) :
    dnFn n (rStr k, rStr j) =
      rStr ((((dnRot (rStr k) : ℤ) + dnRot (rStr j)) % (n : ℤ)).toNat) := by
  rw [dnFn]
  simp only [dnIsFlip_rStr]
  rfl

theorem dnFn_rs (n k j : ℕ) :
    dnFn n (rStr k, rsStr j) =
      rsStr ((((dnRot (rStr k) : ℤ) + dnRot (rsStr j)) % (n : ℤ)).toNat) := by
  rw [dnFn]
  simp only [dnIsFlip_rStr, dnIsFlip_rsStr]
  rfl

theorem dnFn_sr (n k j : ℕ) :
    dnFn n (rsStr k, rStr j) =
      rsStr ((((dnRot (rsStr k) : ℤ) - dnRot (rStr j)) % (n : ℤ)).toNat) := by
  rw [dnFn]
  simp only [dnIsFlip_rStr, dnIsFlip_rsStr]
  rfl

theorem dnFn_ss (n k j : ℕ) :
    dnFn n (rsStr k, rsStr j) =
      rStr ((((dnRot (rsStr k) : ℤ) - dnRot (rsStr j)) % (n : ℤ)).toNat) := by
  rw [dnFn]
  simp only [dnIsFlip_rsStr]
  rfl

/-! Integer modulus helpers. -/

theorem emod_toNat_lt {a : ℤ} {n : ℕ} (hn : 0 < n) : (a % (n : ℤ)).toNat < n := by
  have h1 : 0 ≤ a % (n : ℤ) := Int.emod_nonneg a (by omega)
  have h2 : a % (n : ℤ) < n := Int.emod_lt_of_pos a (by omega)
  omega

theorem emod_toNat_cast {a : ℤ} {n : ℕ} (hn : 0 < n) :
    (((a % (n : ℤ)).toNat : ℤ)) = a % (n : ℤ) := by
  have h1 : 0 ≤ a % (n : ℤ) := Int.emod_nonneg a (by omega)
  omega

theorem emod_self_lt {k n : ℕ} (h : k < n) : (((k : ℤ)) % (n : ℤ)).toNat = k := by
  have h2 : ((k : ℤ)) % (n : ℤ) = (k : ℤ) := Int.emod_eq_of_lt (by omega) (by omega)
  rw [h2]
  omega

/-! ## The element list of `Dn(n)` -/

theorem mem_dnOrdered {n : ℕ} {x : List ℕ} :
    x ∈ dnOrdered n ↔ (∃ k, k < n ∧ x = rStr k) ∨ (∃ k, k < n ∧ x = rsStr k) := by
  rw [dnOrdered]
  simp only [List.mem_append, List.mem_map, List.mem_range]
  constructor
  · rintro (⟨k, hk, rfl⟩ | ⟨k, hk, rfl⟩)
    · exact Or.inl ⟨k, hk, rfl⟩
    · exact Or.inr ⟨k, hk, rfl⟩
  · rintro (⟨k, hk, rfl⟩ | ⟨k, hk, rfl⟩)
    · exact Or.inl ⟨k, hk, rfl⟩
    · exact Or.inr ⟨k, hk, rfl⟩

theorem nodup_dnOrdered {n : ℕ} (hn : n ≤ 10) : (dnOrdered n).Nodup := by
  rw [dnOrdered]
  refine List.Nodup.append ?_ ?_ ?_
  · refine List.Nodup.map_on ?_ (List.nodup_range n)
    intro a ha b hb hab
    rw [List.mem_range] at ha hb
    exact rStr_inj (by omega) (by omega) hab
  · refine List.Nodup.map_on ?_ (List.nodup_range n)
    intro a ha b hb hab
    rw [List.mem_range] at ha hb
    exact rsStr_inj (by omega) (by omega) hab
  · intro x hx hy
    rcases List.mem_map.1 hx with ⟨a, _, rfl⟩
    rcases List.mem_map.1 hy with ⟨b, _, hb⟩
    exact rStr_ne_rsStr hb.symm

theorem dnOrdered_length (n : ℕ) : (dnOrdered n).length = n + n := by
  rw [dnOrdered]
  simp

/-- For `n ≤ 10` the frozenset of dihedral elements keeps the ordered
list unchanged. -/
theorem dnEls_eq {n : ℕ} (hn : n ≤ 10) : mkSet (dnOrdered n) = dnOrdered n :=
  mkSet_eq_self (nodup_dnOrdered hn)

theorem dnOrdered_get_lt {n i : ℕ} (hi : i < n)
    (h : i < (dnOrdered n).length) : (dnOrdered n).get ⟨i, h⟩ = rStr i := by
  have h2 : i < (((List.range n).map rStr) ++ ((List.range n).map rsStr)).length := by
    simpa [dnOrdered] using h
  have hcast : (dnOrdered n).get ⟨i, h⟩ =
      (((List.range n).map rStr) ++ ((List.range n).map rsStr)).get ⟨i, h2⟩ := rfl
  rw [hcast, List.get_eq_getElem]
  rw [List.getElem_append_left (by simpa using hi)]
  rw [List.getElem_map, List.getElem_range]

theorem dnOrdered_get_ge {n i : ℕ} (hge : n ≤ i) (hi : i < n + n)
    (h : i < (dnOrdered n).length) : (dnOrdered n).get ⟨i, h⟩ = rsStr (i - n) := by
  have h2 : i < (((List.range n).map rStr) ++ ((List.range n).map rsStr)).length := by
    simpa [dnOrdered] using h
  have hcast : (dnOrdered n).get ⟨i, h⟩ =
      (((List.range n).map rStr) ++ ((List.range n).map rsStr)).get ⟨i, h2⟩ := rfl
  rw [hcast, List.get_eq_getElem]
  rw [List.getElem_append_right (by simpa using hge)]
  simp only [List.getElem_map, List.getElem_range]
  congr 1
  simp

/-! ## Generic list helpers for the symbolic proofs -/

theorem filter_eq_singleton {α : Type} {l : List α} {p : α → Bool} {e : α}
    (hnd : l.Nodup) (he : e ∈ l) (hpe : p e = true)
    (huniq : ∀ x ∈ l, p x = true → x = e) : l.filter p = [e] := by
  induction l with
  | nil => cases he
  | cons y ys ih =>
    rcases List.mem_cons.1 he with rfl | hey
    · rw [List.filter_cons_of_pos hpe]
      have : ys.filter p = [] := by
        rw [List.filter_eq_nil_iff]
        intro a ha hpa
        have := huniq a (List.mem_cons_of_mem _ ha) hpa
        subst this
        exact (List.nodup_cons.1 hnd).1 ha
      rw [this]
    · have hpy : p y = false := by
        by_contra hpy
        have hye := huniq y (List.mem_cons_self _ _) (by
          cases hq : p y
          · exact absurd hq hpy
          · rfl)
        subst hye
        exact (List.nodup_cons.1 hnd).1 hey
      rw [List.filter_cons_of_neg (by rw [hpy]; exact fun h => by cases h)]
      exact ih (List.nodup_cons.1 hnd).2 hey
        (fun x hx hpx => huniq x (List.mem_cons_of_mem _ hx) hpx)

theorem get?_idxOf {α : Type} [DecidableEq α] {l : List α} {a : α} (h : a ∈ l) :
    l.get? (idxOf a l) = some a := by
  induction l with
  | nil => cases h
  | cons y ys ih =>
    rw [idxOf]
    by_cases hya : y = a
    · rw [if_pos hya, hya]
      rfl
    · rw [if_neg hya]
      rcases List.mem_cons.1 h with rfl | hmem
      · exact absurd rfl hya
      · exact ih hmem

theorem filterMap_get?_idxOf {α : Type} [DecidableEq α] {els : List α} :
    ∀ {ord : List α}, (∀ a ∈ ord, a ∈ els) →
      (ord.map (fun a => idxOf a els)).filterMap (fun i => els.get? i) = ord := by
  intro ord
  induction ord with
  | nil => intro _; rfl
  | cons y ys ih =>
    intro hsub
    rw [List.map_cons, List.filterMap_cons]
    rw [get?_idxOf (hsub y (List.mem_cons_self _ _))]
    rw [ih (fun a ha => hsub a (List.mem_cons_of_mem _ ha))]

/-- `List.find?` returns the element at the first position satisfying the
predicate. -/
theorem find?_eq_some_idx {α : Type} {p : α → Bool} :
    ∀ {l : List α} {i : ℕ} (hi : i < l.length),
      p (l.get ⟨i, hi⟩) = true →
      (∀ j (hj : j < i), p (l.get ⟨j, lt_trans hj hi⟩) = false) →
      l.find? p = some (l.get ⟨i, hi⟩) := by
  intro l
  induction l with
  | nil => intro i hi; cases hi
  | cons y ys ih =>
    intro i hi hp hb
    cases i with
    | zero =>
      exact List.find?_cons_of_pos _ hp
    | succ i' =>
      have hy : p y = false := hb 0 (Nat.succ_pos _)
      rw [List.find?_cons_of_neg _ (by rw [hy]; exact fun h => by cases h)]
      exact ih (Nat.succ_lt_succ_iff.1 hi) hp
        (fun j hj => hb (j + 1) (Nat.succ_lt_succ hj))

/-- The first element of a list satisfying a predicate that only one
element satisfies. -/
theorem find?_unique {α : Type} {p : α → Bool} {a : α} :
    ∀ {l : List α}, a ∈ l → p a = true → (∀ x ∈ l, p x = true → x = a) →
      l.find? p = some a := by
  intro l
  induction l with
  | nil => intro ha; cases ha
  | cons y ys ih =>
    intro ha hpa huniq
    by_cases hpy : p y = true
    · rw [List.find?_cons_of_pos _ hpy, huniq y (List.mem_cons_self _ _) hpy]
    · rw [List.find?_cons_of_neg _ (by rw [Bool.eq_false_iff.2 hpy]; exact fun h => by cases h)]
      rcases List.mem_cons.1 ha with rfl | hmem
      · exact absurd hpa hpy
      · exact ih hmem hpa (fun x hx hpx => huniq x (List.mem_cons_of_mem _ hx) hpx)

/-! Further modulus helpers. -/

theorem emod_add_right_arg (a b : ℤ) (n : ℕ) :
    (a + b % (n : ℤ)) % (n : ℤ) = (a + b) % (n : ℤ) := by
  rw [Int.add_emod, Int.emod_emod_of_dvd b dvd_rfl, ← Int.add_emod]

theorem emod_add_left_arg (a b : ℤ) (n : ℕ) :
    (a % (n : ℤ) + b) % (n : ℤ) = (a + b) % (n : ℤ) := by
  rw [Int.add_emod, Int.emod_emod_of_dvd a dvd_rfl, ← Int.add_emod]

theorem emod_sub_right_arg (a b : ℤ) (n : ℕ) :
    (a - b % (n : ℤ)) % (n : ℤ) = (a - b) % (n : ℤ) := by
  rw [Int.sub_emod, Int.emod_emod_of_dvd b dvd_rfl, ← Int.sub_emod]

theorem emod_sub_left_arg (a b : ℤ) (n : ℕ) :
    (a % (n : ℤ) - b) % (n : ℤ) = (a - b) % (n : ℤ) := by
  rw [Int.sub_emod, Int.emod_emod_of_dvd a dvd_rfl, ← Int.sub_emod]

/-- `%` on a sum of naturals agrees between `ℤ` and `ℕ`. -/
theorem emod_coe_add (k j n : ℕ) :
    (((k : ℤ) + j) % (n : ℤ)).toNat = (k + j) % n := by
  rw [show ((k : ℤ) + j) = ((k + j : ℕ) : ℤ) by push_cast; ring]
  rw [← Int.natCast_mod]
  exact Int.toNat_natCast _

theorem add_mod_eq_zero {k j n : ℕ} (hk : k < n) (hj : j < n)
    (h : (k + j) % n = 0) : k + j = 0 ∨ k + j = n := by
  rcases lt_or_le (k + j) n with hlt | hle
  · rw [Nat.mod_eq_of_lt hlt] at h
    omega
  · rw [Nat.mod_eq_sub_mod hle, Nat.mod_eq_of_lt (by omega)] at h
    omega

theorem emod_sub_eq_zero {k j n : ℕ} (hk : k < n) (hj : j < n)
    (h : ((k : ℤ) - j) % (n : ℤ) = 0) : k = j := by
  rcases le_or_lt (j : ℤ) (k : ℤ) with hle | hlt
  · rw [Int.emod_eq_of_lt (by omega) (by omega)] at h
    omega
  · rw [show ((k : ℤ) - j) = ((k : ℤ) - j + n) - n by ring] at h
    rw [show ((k : ℤ) - j + n - n) % (n : ℤ) = ((k : ℤ) - j + n + (n : ℤ) * (-1)) % (n : ℤ) by ring_nf] at h
    rw [Int.add_mul_emod_self_left] at h
    rw [Int.emod_eq_of_lt (by omega) (by omega)] at h
    omega

/-! Rotation-valued product lemmas: once both rotation amounts are single
digits, `dnRot` reads them back exactly. -/

theorem dnFn_rr_rot {n k j : ℕ} (hk : k < 10) (hj : j < 10) :
    dnFn n (rStr k, rStr j) = rStr ((((k : ℤ) + j) % (n : ℤ)).toNat) := by
  rw [dnFn_rr, dnRot_rStr hk, dnRot_rStr hj]

theorem dnFn_rs_rot {n k j : ℕ} (hk : k < 10) (hj : j < 10) :
    dnFn n (rStr k, rsStr j) = rsStr ((((k : ℤ) + j) % (n : ℤ)).toNat) := by
  rw [dnFn_rs, dnRot_rStr hk, dnRot_rsStr hj]

theorem dnFn_sr_rot {n k j : ℕ} (hk : k < 10) (hj : j < 10) :
    dnFn n (rsStr k, rStr j) = rsStr ((((k : ℤ) - j) % (n : ℤ)).toNat) := by
  rw [dnFn_sr, dnRot_rsStr hk, dnRot_rStr hj]

theorem dnFn_ss_rot {n k j : ℕ} (hk : k < 10) (hj : j < 10) :
    dnFn n (rsStr k, rsStr j) = rStr ((((k : ℤ) - j) % (n : ℤ)).toNat) := by
  rw [dnFn_ss, dnRot_rsStr hk, dnRot_rsStr hj]

theorem dnFn_rr_nat {n k j : ℕ} (hk : k < 10) (hj : j < 10) :
    dnFn n (rStr k, rStr j) = rStr ((k + j) % n) := by
  rw [dnFn_rr_rot hk hj, emod_coe_add]

theorem dnFn_rs_nat {n k j : ℕ} (hk : k < 10) (hj : j < 10) :
    dnFn n (rStr k, rsStr j) = rsStr ((k + j) % n) := by
  rw [dnFn_rs_rot hk hj, emod_coe_add]

/-- The dihedral element strings are closed under `multiply_rots_and_flips`
for every positive `n`. -/
theorem dnFn_mem {n : ℕ} (hn : 0 < n) {x y : List ℕ} (hx : x ∈ dnOrdered n)
    (hy : y ∈ dnOrdered n) : dnFn n (x, y) ∈ dnOrdered n := by
  rcases mem_dnOrdered.1 hx with ⟨a, ha, rfl⟩ | ⟨a, ha, rfl⟩ <;>
    rcases mem_dnOrdered.1 hy with ⟨b, hb, rfl⟩ | ⟨b, hb, rfl⟩
  · rw [dnFn_rr]
    exact mem_dnOrdered.2 (Or.inl ⟨_, emod_toNat_lt hn, rfl⟩)
  · rw [dnFn_rs]
    exact mem_dnOrdered.2 (Or.inr ⟨_, emod_toNat_lt hn, rfl⟩)
  · rw [dnFn_sr]
    exact mem_dnOrdered.2 (Or.inr ⟨_, emod_toNat_lt hn, rfl⟩)
  · rw [dnFn_ss]
    exact mem_dnOrdered.2 (Or.inl ⟨_, emod_toNat_lt hn, rfl⟩)

/-- The `Function.__init__` check of `Dn(n)` passes for every positive
`n`. -/
theorem dn_funcImageOk {n : ℕ} (hn : 0 < n) :
    funcImageOk (setSq (mkSet (dnOrdered n))) (mkSet (dnOrdered n)) (dnFn n) = true := by
  rw [funcImageOk, List.all_eq_true]
  intro p hp
  rcases mem_setSq.1 hp with ⟨h1, h2⟩
  simp only [decide_eq_true_eq]
  exact mem_mkSet.2 (dnFn_mem hn (mem_mkSet.1 h1) (mem_mkSet.1 h2))

/-- The closure check of `Group.__init__` passes for `Dn(n)`. -/
theorem dn_closureOk {n : ℕ} (hn : 0 < n) :
    closureOk (mkSet (dnOrdered n))
      ⟨setSq (mkSet (dnOrdered n)), mkSet (dnOrdered n), dnFn n⟩ = true := by
  rw [closureOk, sSubB_iff]
  intro x hx
  rcases List.mem_map.1 (mem_mkSet.1 hx) with ⟨p, hp, rfl⟩
  rcases mem_setSq.1 hp with ⟨h1, h2⟩
  exact mem_mkSet.2 (dnFn_mem hn (mem_mkSet.1 h1) (mem_mkSet.1 h2))

/-- For `1 ≤ n ≤ 10`, `r0` is the unique two-sided identity found by
`Group.__init__` in `Dn(n)`. -/
theorem dn_identities {n : ℕ} (hn : 0 < n) (h10 : n ≤ 10) :
    identitiesList (dnOrdered n) (dnFn n) = [rStr 0] := by
  have h0mem : rStr 0 ∈ dnOrdered n := mem_dnOrdered.2 (Or.inl ⟨0, hn, rfl⟩)
  rw [identitiesList]
  refine filter_eq_singleton (nodup_dnOrdered h10) h0mem ?_ ?_
  · rw [List.all_eq_true]
    intro a hamem
    rcases mem_dnOrdered.1 hamem with ⟨k, hk, rfl⟩ | ⟨k, hk, rfl⟩
    · rw [dnFn_rr_nat (by omega) (by omega), dnFn_rr_nat (by omega) (by omega)]
      rw [Nat.zero_add, Nat.add_zero, Nat.mod_eq_of_lt hk]
      simp
    · rw [dnFn_rs_nat (by omega) (by omega)]
      rw [dnFn_sr_rot (by omega) (by omega)]
      rw [Nat.zero_add, Nat.mod_eq_of_lt hk]
      simp only [Nat.cast_zero, sub_zero]
      rw [Int.emod_eq_of_lt (by omega) (by omega), Int.toNat_natCast]
      simp
  · intro x hxmem hall
    rw [List.all_eq_true] at hall
    have h1 := hall _ h0mem
    rw [Bool.and_eq_true, decide_eq_true_eq, decide_eq_true_eq] at h1
    rcases mem_dnOrdered.1 hxmem with ⟨k, hk, rfl⟩ | ⟨k, hk, rfl⟩
    · have h2 := h1.1
      rw [dnFn_rr_nat (by omega) (by omega), Nat.add_zero, Nat.mod_eq_of_lt hk] at h2
      rw [rStr_inj (by omega) (by omega) h2]
    · have h2 := h1.1
      rw [dnFn_sr_rot (by omega) (by omega)] at h2
      exact absurd h2.symm rStr_ne_rsStr

theorem rStr_congr {k j : ℕ} (h : k = j) : rStr k = rStr j := by rw [h]

theorem rsStr_congr {k j : ℕ} (h : k = j) : rsStr k = rsStr j := by rw [h]

theorem emod_toNat_congr {E1 E2 : ℤ} {n : ℕ} (h : E1 = E2) :
    (E1 % (n : ℤ)).toNat = (E2 % (n : ℤ)).toNat := by rw [h]

/-- `multiply_rots_and_flips` is associative on the whole element set of
`Dn(n)` for `1 ≤ n ≤ 10` (rotation amounts stay single digits). -/
theorem dn_assoc_all {n : ℕ} (hn : 0 < n) (h10 : n ≤ 10) :
    ∀ x ∈ dnOrdered n, ∀ y ∈ dnOrdered n, ∀ z ∈ dnOrdered n,
      dnFn n (x, dnFn n (y, z)) = dnFn n (dnFn n (x, y), z) := by
  have hlt : ∀ m : ℕ, m < n → m < 10 := fun m h => lt_of_lt_of_le h h10
  have hm : ∀ e : ℤ, ((e % (n : ℤ)).toNat) < 10 :=
    fun e => lt_of_lt_of_le (emod_toNat_lt hn) h10
  intro x hx y hy z hz
  rcases mem_dnOrdered.1 hx with ⟨a, ha, rfl⟩ | ⟨a, ha, rfl⟩ <;>
    rcases mem_dnOrdered.1 hy with ⟨b, hb, rfl⟩ | ⟨b, hb, rfl⟩ <;>
      rcases mem_dnOrdered.1 hz with ⟨c, hc, rfl⟩ | ⟨c, hc, rfl⟩
  · rw [dnFn_rr_rot (hlt b hb) (hlt c hc), dnFn_rr_rot (hlt a ha) (hm _),
      dnFn_rr_rot (hlt a ha) (hlt b hb), dnFn_rr_rot (hm _) (hlt c hc)]
    refine rStr_congr ?_
    rw [emod_toNat_cast hn, emod_toNat_cast hn, emod_add_right_arg, emod_add_left_arg]
    exact emod_toNat_congr (by ring)
  · rw [dnFn_rs_rot (hlt b hb) (hlt c hc), dnFn_rs_rot (hlt a ha) (hm _),
      dnFn_rr_rot (hlt a ha) (hlt b hb), dnFn_rs_rot (hm _) (hlt c hc)]
    refine rsStr_congr ?_
    rw [emod_toNat_cast hn, emod_toNat_cast hn, emod_add_right_arg, emod_add_left_arg]
    exact emod_toNat_congr (by ring)
  · rw [dnFn_sr_rot (hlt b hb) (hlt c hc), dnFn_rs_rot (hlt a ha) (hm _),
      dnFn_rs_rot (hlt a ha) (hlt b hb), dnFn_sr_rot (hm _) (hlt c hc)]
    refine rsStr_congr ?_
    rw [emod_toNat_cast hn, emod_toNat_cast hn, emod_add_right_arg, emod_sub_left_arg]
    exact emod_toNat_congr (by ring)
  · rw [dnFn_ss_rot (hlt b hb) (hlt c hc), dnFn_rr_rot (hlt a ha) (hm _),
      dnFn_rs_rot (hlt a ha) (hlt b hb), dnFn_ss_rot (hm _) (hlt c hc)]
    refine rStr_congr ?_
    rw [emod_toNat_cast hn, emod_toNat_cast hn, emod_add_right_arg, emod_sub_left_arg]
    exact emod_toNat_congr (by ring)
  · rw [dnFn_rr_rot (hlt b hb) (hlt c hc), dnFn_sr_rot (hlt a ha) (hm _),
      dnFn_sr_rot (hlt a ha) (hlt b hb), dnFn_sr_rot (hm _) (hlt c hc)]
    refine rsStr_congr ?_
    rw [emod_toNat_cast hn, emod_toNat_cast hn, emod_sub_right_arg, emod_sub_left_arg]
    exact emod_toNat_congr (by ring)
  · rw [dnFn_rs_rot (hlt b hb) (hlt c hc), dnFn_ss_rot (hlt a ha) (hm _),
      dnFn_sr_rot (hlt a ha) (hlt b hb), dnFn_ss_rot (hm _) (hlt c hc)]
    refine rStr_congr ?_
    rw [emod_toNat_cast hn, emod_toNat_cast hn, emod_sub_right_arg, emod_sub_left_arg]
    exact emod_toNat_congr (by ring)
  · rw [dnFn_sr_rot (hlt b hb) (hlt c hc), dnFn_ss_rot (hlt a ha) (hm _),
      dnFn_ss_rot (hlt a ha) (hlt b hb), dnFn_rr_rot (hm _) (hlt c hc)]
    refine rStr_congr ?_
    rw [emod_toNat_cast hn, emod_toNat_cast hn, emod_sub_right_arg, emod_add_left_arg]
    exact emod_toNat_congr (by ring)
  · rw [dnFn_ss_rot (hlt b hb) (hlt c hc), dnFn_sr_rot (hlt a ha) (hm _),
      dnFn_ss_rot (hlt a ha) (hlt b hb), dnFn_rs_rot (hm _) (hlt c hc)]
    refine rsStr_congr ?_
    rw [emod_toNat_cast hn, emod_toNat_cast hn, emod_sub_right_arg, emod_add_left_arg]
    exact emod_toNat_congr (by ring)

/-- The associativity check of `Group.__init__` passes for `Dn(n)`,
`1 ≤ n ≤ 10`. -/
theorem dn_assocOk {n : ℕ} (hn : 0 < n) (h10 : n ≤ 10) :
    assocOk (dnOrdered n) (dnFn n) = true := by
  rw [assocOk, List.all_eq_true]
  intro t ht
  rcases combos3_mem ht with ⟨h1, h2, h3⟩
  simp only [decide_eq_true_eq]
  exact dn_assoc_all hn h10 _ h1 _ h2 _ h3

/-- The right-inverse check of `Group.__init__` passes for `Dn(n)`,
`1 ≤ n ≤ 10`. -/
theorem dn_inversesOk {n : ℕ} (hn : 0 < n) (h10 : n ≤ 10) :
    inversesOk (dnOrdered n) (dnFn n) (rStr 0) = true := by
  rw [inversesOk]
  have hfil : (dnOrdered n).filter
      (fun a => (dnOrdered n).any (fun b => decide (dnFn n (a, b) = rStr 0))) =
        dnOrdered n := by
    rw [List.filter_eq_self]
    intro a hamem
    rw [List.any_eq_true]
    rcases mem_dnOrdered.1 hamem with ⟨k, hk, rfl⟩ | ⟨k, hk, rfl⟩
    · refine ⟨rStr ((n - k) % n), mem_dnOrdered.2 (Or.inl ⟨_, Nat.mod_lt _ hn, rfl⟩), ?_⟩
      simp only [decide_eq_true_eq]
      rw [dnFn_rr_nat (by omega) (lt_of_lt_of_le (Nat.mod_lt _ hn) h10)]
      by_cases hk0 : k = 0
      · subst hk0
        simp [Nat.mod_self]
      · rw [Nat.mod_eq_of_lt (show n - k < n by omega), show k + (n - k) = n by omega, Nat.mod_self]
    · refine ⟨rsStr k, mem_dnOrdered.2 (Or.inr ⟨k, hk, rfl⟩), ?_⟩
      simp only [decide_eq_true_eq]
      rw [dnFn_ss_rot (by omega) (by omega), sub_self, Int.zero_emod]
      rfl
  rw [hfil]
  exact decide_eq_true rfl

/-- Pairs given by values at nondecreasing positions are in `combos2`. -/
theorem combos2_mem_pair {α : Type} [DecidableEq α] {l : List α} {x y : α} {i j : ℕ}
    (hij : i ≤ j) (hj : j < l.length)
    (hx : l.get ⟨i, lt_of_le_of_lt hij hj⟩ = x) (hy : l.get ⟨j, hj⟩ = y) :
    (x, y) ∈ combos2 l := by
  subst hx
  subst hy
  exact combos2_mem_of_le hij hj

theorem dn_abelian_1 : abelianB (dnOrdered 1) (dnFn 1) = true := by decide

theorem dn_abelian_2 : abelianB (dnOrdered 2) (dnFn 2) = true := by decide

/-- For `1 ≤ n ≤ 10`, the Abelian flag of `Dn(n)` is set exactly when
`n < 3`. -/
theorem dn_abelianB_iff {n : ℕ} (hn : 0 < n) (h10 : n ≤ 10) :
    abelianB (dnOrdered n) (dnFn n) = true ↔ n < 3 := by
  constructor
  · intro hab
    by_contra hge
    push_neg at hge
    rw [abelianB, List.all_eq_true] at hab
    have hlen : n < (dnOrdered n).length := by rw [dnOrdered_length]; omega
    have hpair : (rStr 1, rsStr 0) ∈ combos2 (dnOrdered n) := by
      refine combos2_mem_pair (show 1 ≤ n by omega) hlen
        (dnOrdered_get_lt (by omega) _) ?_
      rw [dnOrdered_get_ge (le_refl n) (by omega) hlen, Nat.sub_self]
    have hcomm := hab _ hpair
    simp only [decide_eq_true_eq] at hcomm
    rw [dnFn_rs_nat (by omega) (by omega), dnFn_sr_rot (by omega) (by omega)] at hcomm
    have hmod : ((((0 : ℕ) : ℤ)) - (((1 : ℕ) : ℤ))) % ((n : ℕ) : ℤ) = (n : ℤ) - 1 := by
      rw [show (((0 : ℕ) : ℤ)) - (((1 : ℕ) : ℤ)) = ((n : ℤ) - 1) + (n : ℤ) * (-1) by push_cast; ring]
      rw [Int.add_mul_emod_self_left]
      exact Int.emod_eq_of_lt (by omega) (by omega)
    rw [hmod, show ((n : ℤ) - 1).toNat = n - 1 by omega] at hcomm
    rw [Nat.add_zero, Nat.mod_eq_of_lt (by omega)] at hcomm
    have := rsStr_inj (by omega) (by omega) hcomm
    omega
  · intro h3
    interval_cases n
    · exact dn_abelian_1
    · exact dn_abelian_2

/-- The group record produced by `Dn(n)` for `1 ≤ n ≤ 10`. -/
def dnGroup (n : ℕ) : PyGroup (List ℕ) :=
  ⟨dnOrdered n, ⟨setSq (dnOrdered n), dnOrdered n, dnFn n⟩, rStr 0,
    abelianB (dnOrdered n) (dnFn n),
    some ((dnOrdered n).map (fun a => idxOf a (dnOrdered n)))⟩

/-- For `1 ≤ n ≤ 10`, `Dn(n)` constructs successfully and returns
`dnGroup n`. -/
theorem Dn_ok {n : ℕ} (hn : 0 < n) (h10 : n ≤ 10) : Dn n = .ok (dnGroup n) := by
  have hE : mkSet (dnOrdered n) = dnOrdered n := dnEls_eq h10
  have h3 : identitiesList (mkSet (dnOrdered n)) (dnFn n) = [rStr 0] := by
    rw [hE]; exact dn_identities hn h10
  have h4 : assocOk (mkSet (dnOrdered n)) (dnFn n) = true := by
    rw [hE]; exact dn_assocOk hn h10
  have h5 : inversesOk (mkSet (dnOrdered n)) (dnFn n) (rStr 0) = true := by
    rw [hE]; exact dn_inversesOk hn h10
  have hDn := Dn_eq_ok (dn_funcImageOk hn) (dn_closureOk hn) h3 h4 h5
  rw [hE] at hDn
  exact hDn

/-- Iteration over `dnGroup n` follows the recorded display order, which
is `ordered_elems` itself. -/
theorem dn_groupIter (n : ℕ) : groupIter (dnGroup n) = dnOrdered n := by
  show ((dnOrdered n).map (fun a => idxOf a (dnOrdered n))).filterMap
      (fun i => (dnOrdered n).get? i) = dnOrdered n
  exact filterMap_get?_idxOf (fun a ha => ha)

/-- In `Dn(n)` every flip is its own inverse (as computed by
`Group.invert`). -/
theorem dn_invert_flip {n k : ℕ} (hn : 0 < n) (h10 : n ≤ 10) (hk : k < n) :
    invert (dnGroup n) (rsStr k) = .ok (rsStr k) := by
  have hmem : rsStr k ∈ dnOrdered n := mem_dnOrdered.2 (Or.inr ⟨k, hk, rfl⟩)
  have hmem' : rsStr k ∈ (dnGroup n).set := hmem
  have hprod : dnFn n (rsStr k, rsStr k) = rStr 0 := by
    rw [dnFn_ss_rot (by omega) (by omega), sub_self, Int.zero_emod]
    rfl
  have hfind : (groupIter (dnGroup n)).find?
      (fun a => decide ((dnGroup n).bin_op.fn (rsStr k, a) = (dnGroup n).e)) =
        some (rsStr k) := by
    rw [dn_groupIter]
    refine find?_unique hmem ?_ ?_
    · simp only [decide_eq_true_eq]
      exact hprod
    · intro x hx hpx
      rw [decide_eq_true_eq] at hpx
      rcases mem_dnOrdered.1 hx with ⟨j, hj, rfl⟩ | ⟨j, hj, rfl⟩
      · have hpx' : dnFn n (rsStr k, rStr j) = rStr 0 := hpx
        rw [dnFn_sr] at hpx'
        exact absurd hpx'.symm rStr_ne_rsStr
      · have hpx' : dnFn n (rsStr k, rsStr j) = rStr 0 := hpx
        rw [dnFn_ss_rot (by omega) (by omega)] at hpx'
        have hz := rStr_inj (lt_of_lt_of_le (emod_toNat_lt hn) h10) (by omega) hpx'
        have hnn : 0 ≤ ((k : ℤ) - j) % ((n : ℕ) : ℤ) := Int.emod_nonneg _ (by omega)
        have h0 : ((k : ℤ) - j) % ((n : ℕ) : ℤ) = 0 := by omega
        exact rsStr_congr (emod_sub_eq_zero hk hj h0).symm
  rw [invert, if_neg (fun hc => hc hmem'), hfind]

/-- In `Dn(n)` the inverse of the rotation `r k` computed by
`Group.invert` is `r ((n - k) % n)`. -/
theorem dn_invert_rot {n k : ℕ} (hn : 0 < n) (h10 : n ≤ 10) (hk : k < n) :
    invert (dnGroup n) (rStr k) = .ok (rStr ((n - k) % n)) := by
  have hmem : rStr k ∈ dnOrdered n := mem_dnOrdered.2 (Or.inl ⟨k, hk, rfl⟩)
  have hmem' : rStr k ∈ (dnGroup n).set := hmem
  have hjlt : (n - k) % n < n := Nat.mod_lt _ hn
  have htgt : rStr ((n - k) % n) ∈ dnOrdered n :=
    mem_dnOrdered.2 (Or.inl ⟨_, hjlt, rfl⟩)
  have hprod : dnFn n (rStr k, rStr ((n - k) % n)) = rStr 0 := by
    rw [dnFn_rr_nat (by omega) (by omega)]
    by_cases hk0 : k = 0
    · subst hk0
      simp [Nat.mod_self]
    · rw [Nat.mod_eq_of_lt (show n - k < n by omega),
        show k + (n - k) = n by omega, Nat.mod_self]
  have hfind : (groupIter (dnGroup n)).find?
      (fun a => decide ((dnGroup n).bin_op.fn (rStr k, a) = (dnGroup n).e)) =
        some (rStr ((n - k) % n)) := by
    rw [dn_groupIter]
    refine find?_unique htgt ?_ ?_
    · simp only [decide_eq_true_eq]
      exact hprod
    · intro x hx hpx
      rw [decide_eq_true_eq] at hpx
      rcases mem_dnOrdered.1 hx with ⟨j, hj, rfl⟩ | ⟨j, hj, rfl⟩
      · have hpx' : dnFn n (rStr k, rStr j) = rStr 0 := hpx
        rw [dnFn_rr_nat (by omega) (by omega)] at hpx'
        have hz := rStr_inj (lt_of_lt_of_le (Nat.mod_lt _ hn) h10) (by omega) hpx'
        refine rStr_congr ?_
        rcases add_mod_eq_zero hk hj hz with h0 | hN
        · rw [show n - k = n by omega, Nat.mod_self]
          omega
        · rw [Nat.mod_eq_of_lt (show n - k < n by omega)]
          omega
      · have hpx' : dnFn n (rStr k, rsStr j) = rStr 0 := hpx
        rw [dnFn_rs] at hpx'
        exact absurd hpx'.symm rStr_ne_rsStr
  rw [invert, if_neg (fun hc => hc hmem'), hfind]

/-! ## The `int(y[1])` bug: `Dn(11)` has no identity -/

/-- `dnRot` reads only the first digit: rotation 10 is read as 1. -/
theorem dnRot_rStr10 : dnRot (rStr 10) = 1 := by decide

theorem dnRot_rsStr10 : dnRot (rsStr 10) = 1 := by decide

theorem rStr_ne_rStr10 {k : ℕ} (hk : k < 10) : rStr k ≠ rStr 10 := by
  rw [rStr_eq hk, rStr, natStr_lt100 (by omega) (by omega)]
  intro h
  simp at h

theorem rsStr_ne_rsStr10 {k : ℕ} (hk : k < 10) : rsStr k ≠ rsStr 10 := by
  rw [rsStr_eq hk, rsStr, rStr, natStr_lt100 (by omega) (by omega)]
  intro h
  simp at h

/-- No element of `Dn(11)` passes the identity filter: the candidate `r0`
fails against `r10` (whose rotation is read as `1`), and every other
candidate already fails against `r0`. -/
theorem dn11_not_identity (x : List ℕ) (hx : x ∈ dnOrdered 11) :
    ∃ a ∈ dnOrdered 11, dnFn 11 (x, a) ≠ a := by
  rcases mem_dnOrdered.1 hx with ⟨k, hk, rfl⟩ | ⟨k, hk, rfl⟩
  · by_cases hk0 : k = 0
    · subst hk0
      refine ⟨rStr 10, mem_dnOrdered.2 (Or.inl ⟨10, by omega, rfl⟩), ?_⟩
      have h1 : dnFn 11 (rStr 0, rStr 10) = rStr 1 := by
        rw [dnFn_rr, dnRot_rStr10, dnRot_rStr (show (0 : ℕ) < 10 by omega)]
        exact rStr_congr (by decide)
      rw [h1]
      exact rStr_ne_rStr10 (by omega)
    · by_cases h9 : k < 10
      · refine ⟨rStr 0, mem_dnOrdered.2 (Or.inl ⟨0, by omega, rfl⟩), ?_⟩
        rw [dnFn_rr_nat h9 (by omega), Nat.add_zero, Nat.mod_eq_of_lt (by omega)]
        intro h
        exact hk0 (rStr_inj h9 (by omega) h)
      · have hk10 : k = 10 := by omega
        subst hk10
        refine ⟨rStr 0, mem_dnOrdered.2 (Or.inl ⟨0, by omega, rfl⟩), ?_⟩
        have h1 : dnFn 11 (rStr 10, rStr 0) = rStr 1 := by
          rw [dnFn_rr, dnRot_rStr10, dnRot_rStr (show (0 : ℕ) < 10 by omega)]
          exact rStr_congr (by decide)
        rw [h1]
        intro h
        have := rStr_inj (by omega) (by omega) h
        omega
  · refine ⟨rStr 0, mem_dnOrdered.2 (Or.inl ⟨0, by omega, rfl⟩), ?_⟩
    rw [dnFn_sr]
    exact fun h => rStr_ne_rsStr h.symm

/-- `Group.__init__` finds no identity at all among the 22 elements of
`Dn(11)`. -/
theorem dn11_identitiesList :
    identitiesList (mkSet (dnOrdered 11)) (dnFn 11) = [] := by
  rw [identitiesList, List.filter_eq_nil_iff]
  intro x hx
  have hx2 : x ∈ dnOrdered 11 := mem_mkSet.1 hx
  intro hall
  rw [List.all_eq_true] at hall
  rcases dn11_not_identity x hx2 with ⟨a, hamem, hne⟩
  have h2 := hall _ (mem_mkSet.2 hamem)
  rw [Bool.and_eq_true, decide_eq_true_eq, decide_eq_true_eq] at h2
  exact hne h2.1

/-- C7 (corrected): the claim asserts the dihedral properties for every
n ≥ 1, but `int(y[1])` reads only the first digit of a rotation amount,
so `Dn(n)` only constructs a group for 1 ≤ n ≤ 10 (see the
counterexample at n = 11).  In that range `Dn(n)` succeeds, its identity
is the string `r0`, it has 2n elements, it is Abelian iff n < 3, every
flip `r k s` is its own inverse, and the inverse of the rotation `r k`
is `r ((n - k) % n)`. -/
theorem c7_Dn_props : ∀ n : ℕ, 1 ≤ n → n ≤ 10 →
    ∃ G : PyGroup (List ℕ), Dn n = .ok G ∧
      G.e = rStr 0 ∧
      G.set.length = 2 * n ∧
      (G.abelian = true ↔ n < 3) ∧
      (∀ k, k < n → invert G (rsStr k) = .ok (rsStr k)) ∧
      (∀ k, k < n → invert G (rStr k) = .ok (rStr ((n - k) % n))) := by
  intro n h1 h10
  refine ⟨dnGroup n, Dn_ok h1 h10, rfl, ?_, dn_abelianB_iff h1 h10,
    fun k hk => dn_invert_flip h1 h10 hk, fun k hk => dn_invert_rot h1 h10 hk⟩
  show (dnOrdered n).length = 2 * n
  rw [dnOrdered_length]
  omega

/-- Witness for C7 at n = 3: the hypotheses 1 ≤ 3 ≤ 10 hold and the
dihedral properties follow. -/
theorem c7_witness :
    ∃ G : PyGroup (List ℕ), Dn 3 = .ok G ∧
      G.e = rStr 0 ∧
      G.set.length = 2 * 3 ∧
      (G.abelian = true ↔ 3 < 3) ∧
      (∀ k, k < 3 → invert G (rsStr k) = .ok (rsStr k)) ∧
      (∀ k, k < 3 → invert G (rStr k) = .ok (rStr ((3 - k) % 3))) :=
  c7_Dn_props 3 (by decide) (by decide)

/-- Counterexample for C7 as stated over all n ≥ 1: `Dn(11)` does not
construct a group at all — `int(y[1])` reads the rotation of `r10` as 1,
no element passes the two-sided identity filter, and `Group.__init__`
raises `ValueError("The group must have an identity element.")`. -/
theorem c7_counterexample :
    Dn 11 = .error (.valueError "The group must have an identity element.") :=
  Dn_eq_error_identity (dn_funcImageOk (by omega)) (dn_closureOk (by omega))
    dn11_identitiesList

/-! ## C3: the cyclic groups `Zn(n)` for `n = 1, …, 9` -/

/-! Literal values of the `Zn` constructions.  Each record is verified
against the constructor by `rfl`; stating the computational claims over
these literals keeps every evaluation small. -/

def znDom1 : List (ℕ × ℕ) := [(0, 0)]

def znF1 : BinFunc ℕ := ⟨znDom1, [0], fun p => (p.1 + p.2) % 1⟩

def znG1 : PyGroup ℕ := ⟨[0], znF1, 0, true, none⟩

def znDom2 : List (ℕ × ℕ) := [(0, 0), (0, 1), (1, 0), (1, 1)]

def znF2 : BinFunc ℕ := ⟨znDom2, [0, 1], fun p => (p.1 + p.2) % 2⟩

def znG2 : PyGroup ℕ := ⟨[0, 1], znF2, 0, true, none⟩

def znDom3 : List (ℕ × ℕ) := [(0, 0), (0, 1), (0, 2), (1, 0), (1, 1), (1, 2), (2, 0), (2, 1), (2, 2)]

def znF3 : BinFunc ℕ := ⟨znDom3, [0, 1, 2], fun p => (p.1 + p.2) % 3⟩

def znG3 : PyGroup ℕ := ⟨[0, 1, 2], znF3, 0, true, none⟩

def znDom4 : List (ℕ × ℕ) := [(0, 0), (0, 1), (0, 2), (0, 3), (1, 0), (1, 1), (1, 2), (1, 3), (2, 0), (2, 1), (2, 2), (2, 3), (3, 0), (3, 1), (3, 2), (3, 3)]

def znF4 : BinFunc ℕ := ⟨znDom4, [0, 1, 2, 3], fun p => (p.1 + p.2) % 4⟩

def znG4 : PyGroup ℕ := ⟨[0, 1, 2, 3], znF4, 0, true, none⟩

def znDom5 : List (ℕ × ℕ) := [(0, 0), (0, 1), (0, 2), (0, 3), (0, 4), (1, 0), (1, 1), (1, 2), (1, 3), (1, 4), (2, 0), (2, 1), (2, 2), (2, 3), (2, 4), (3, 0), (3, 1), (3, 2), (3, 3), (3, 4), (4, 0), (4, 1), (4, 2), (4, 3), (4, 4)]

def znF5 : BinFunc ℕ := ⟨znDom5, [0, 1, 2, 3, 4], fun p => (p.1 + p.2) % 5⟩

def znG5 : PyGroup ℕ := ⟨[0, 1, 2, 3, 4], znF5, 0, true, none⟩

def znDom6 : List (ℕ × ℕ) := [(0, 0), (0, 1), (0, 2), (0, 3), (0, 4), (0, 5), (1, 0), (1, 1), (1, 2), (1, 3), (1, 4), (1, 5), (2, 0), (2, 1), (2, 2), (2, 3), (2, 4), (2, 5), (3, 0), (3, 1), (3, 2), (3, 3), (3, 4), (3, 5), (4, 0), (4, 1), (4, 2), (4, 3), (4, 4), (4, 5), (5, 0), (5, 1), (5, 2), (5, 3), (5, 4), (5, 5)]

def znF6 : BinFunc ℕ := ⟨znDom6, [0, 1, 2, 3, 4, 5], fun p => (p.1 + p.2) % 6⟩

def znG6 : PyGroup ℕ := ⟨[0, 1, 2, 3, 4, 5], znF6, 0, true, none⟩

def znDom7 : List (ℕ × ℕ) := [(0, 0), (0, 1), (0, 2), (0, 3), (0, 4), (0, 5), (0, 6), (1, 0), (1, 1), (1, 2), (1, 3), (1, 4), (1, 5), (1, 6), (2, 0), (2, 1), (2, 2), (2, 3), (2, 4), (2, 5), (2, 6), (3, 0), (3, 1), (3, 2), (3, 3), (3, 4), (3, 5), (3, 6), (4, 0), (4, 1), (4, 2), (4, 3), (4, 4), (4, 5), (4, 6), (5, 0), (5, 1), (5, 2), (5, 3), (5, 4), (5, 5), (5, 6), (6, 0), (6, 1), (6, 2), (6, 3), (6, 4), (6, 5), (6, 6)]

def znF7 : BinFunc ℕ := ⟨znDom7, [0, 1, 2, 3, 4, 5, 6], fun p => (p.1 + p.2) % 7⟩

def znG7 : PyGroup ℕ := ⟨[0, 1, 2, 3, 4, 5, 6], znF7, 0, true, none⟩

def znDom8 : List (ℕ × ℕ) := [(0, 0), (0, 1), (0, 2), (0, 3), (0, 4), (0, 5), (0, 6), (0, 7), (1, 0), (1, 1), (1, 2), (1, 3), (1, 4), (1, 5), (1, 6), (1, 7), (2, 0), (2, 1), (2, 2), (2, 3), (2, 4), (2, 5), (2, 6), (2, 7), (3, 0), (3, 1), (3, 2), (3, 3), (3, 4), (3, 5), (3, 6), (3, 7), (4, 0), (4, 1), (4, 2), (4, 3), (4, 4), (4, 5), (4, 6), (4, 7), (5, 0), (5, 1), (5, 2), (5, 3), (5, 4), (5, 5), (5, 6), (5, 7), (6, 0), (6, 1), (6, 2), (6, 3), (6, 4), (6, 5), (6, 6), (6, 7), (7, 0), (7, 1), (7, 2), (7, 3), (7, 4), (7, 5), (7, 6), (7, 7)]

def znF8 : BinFunc ℕ := ⟨znDom8, [0, 1, 2, 3, 4, 5, 6, 7], fun p => (p.1 + p.2) % 8⟩

def znG8 : PyGroup ℕ := ⟨[0, 1, 2, 3, 4, 5, 6, 7], znF8, 0, true, none⟩

def znDom9 : List (ℕ × ℕ) := [(0, 0), (0, 1), (0, 2), (0, 3), (0, 4), (0, 5), (0, 6), (0, 7), (0, 8), (1, 0), (1, 1), (1, 2), (1, 3), (1, 4), (1, 5), (1, 6), (1, 7), (1, 8), (2, 0), (2, 1), (2, 2), (2, 3), (2, 4), (2, 5), (2, 6), (2, 7), (2, 8), (3, 0), (3, 1), (3, 2), (3, 3), (3, 4), (3, 5), (3, 6), (3, 7), (3, 8), (4, 0), (4, 1), (4, 2), (4, 3), (4, 4), (4, 5), (4, 6), (4, 7), (4, 8), (5, 0), (5, 1), (5, 2), (5, 3), (5, 4), (5, 5), (5, 6), (5, 7), (5, 8), (6, 0), (6, 1), (6, 2), (6, 3), (6, 4), (6, 5), (6, 6), (6, 7), (6, 8), (7, 0), (7, 1), (7, 2), (7, 3), (7, 4), (7, 5), (7, 6), (7, 7), (7, 8), (8, 0), (8, 1), (8, 2), (8, 3), (8, 4), (8, 5), (8, 6), (8, 7), (8, 8)]

def znF9 : BinFunc ℕ := ⟨znDom9, [0, 1, 2, 3, 4, 5, 6, 7, 8], fun p => (p.1 + p.2) % 9⟩

def znG9 : PyGroup ℕ := ⟨[0, 1, 2, 3, 4, 5, 6, 7, 8], znF9, 0, true, none⟩

/-- A subgroup record of `Zn(9)` as `generate` returns it. -/
def z9sub (l : List ℕ) : PyGroup ℕ := ⟨l, znF9, 0, true, none⟩

theorem zn_props_1 : ∃ G : PyGroup ℕ, Zn 1 = .ok G ∧
    G.e = 0 ∧ G.set.length = 1 ∧ G.abelian = true ∧
    (∀ a ∈ G.set, ∀ b ∈ G.set, groupMul G a b = .ok ((a + b) % 1)) ∧
    (∀ a ∈ G.set, invert G a = .ok ((1 - a) % 1)) :=
  ⟨znG1, rfl, rfl, rfl, rfl, by decide, by decide⟩

theorem zn_props_2 : ∃ G : PyGroup ℕ, Zn 2 = .ok G ∧
    G.e = 0 ∧ G.set.length = 2 ∧ G.abelian = true ∧
    (∀ a ∈ G.set, ∀ b ∈ G.set, groupMul G a b = .ok ((a + b) % 2)) ∧
    (∀ a ∈ G.set, invert G a = .ok ((2 - a) % 2)) :=
  ⟨znG2, rfl, rfl, rfl, rfl, by decide, by decide⟩

theorem zn_props_3 : ∃ G : PyGroup ℕ, Zn 3 = .ok G ∧
    G.e = 0 ∧ G.set.length = 3 ∧ G.abelian = true ∧
    (∀ a ∈ G.set, ∀ b ∈ G.set, groupMul G a b = .ok ((a + b) % 3)) ∧
    (∀ a ∈ G.set, invert G a = .ok ((3 - a) % 3)) :=
  ⟨znG3, rfl, rfl, rfl, rfl, by decide, by decide⟩

theorem zn_props_4 : ∃ G : PyGroup ℕ, Zn 4 = .ok G ∧
    G.e = 0 ∧ G.set.length = 4 ∧ G.abelian = true ∧
    (∀ a ∈ G.set, ∀ b ∈ G.set, groupMul G a b = .ok ((a + b) % 4)) ∧
    (∀ a ∈ G.set, invert G a = .ok ((4 - a) % 4)) :=
  ⟨znG4, rfl, rfl, rfl, rfl, by decide, by decide⟩

theorem zn_props_5 : ∃ G : PyGroup ℕ, Zn 5 = .ok G ∧
    G.e = 0 ∧ G.set.length = 5 ∧ G.abelian = true ∧
    (∀ a ∈ G.set, ∀ b ∈ G.set, groupMul G a b = .ok ((a + b) % 5)) ∧
    (∀ a ∈ G.set, invert G a = .ok ((5 - a) % 5)) :=
  ⟨znG5, rfl, rfl, rfl, rfl, by decide, by decide⟩

theorem zn_props_6 : ∃ G : PyGroup ℕ, Zn 6 = .ok G ∧
    G.e = 0 ∧ G.set.length = 6 ∧ G.abelian = true ∧
    (∀ a ∈ G.set, ∀ b ∈ G.set, groupMul G a b = .ok ((a + b) % 6)) ∧
    (∀ a ∈ G.set, invert G a = .ok ((6 - a) % 6)) :=
  ⟨znG6, rfl, rfl, rfl, rfl, by decide, by decide⟩

theorem zn_props_7 : ∃ G : PyGroup ℕ, Zn 7 = .ok G ∧
    G.e = 0 ∧ G.set.length = 7 ∧ G.abelian = true ∧
    (∀ a ∈ G.set, ∀ b ∈ G.set, groupMul G a b = .ok ((a + b) % 7)) ∧
    (∀ a ∈ G.set, invert G a = .ok ((7 - a) % 7)) :=
  ⟨znG7, rfl, rfl, rfl, rfl, by decide, by decide⟩

theorem zn_props_8 : ∃ G : PyGroup ℕ, Zn 8 = .ok G ∧
    G.e = 0 ∧ G.set.length = 8 ∧ G.abelian = true ∧
    (∀ a ∈ G.set, ∀ b ∈ G.set, groupMul G a b = .ok ((a + b) % 8)) ∧
    (∀ a ∈ G.set, invert G a = .ok ((8 - a) % 8)) :=
  ⟨znG8, rfl, rfl, rfl, rfl, by decide, by decide⟩

theorem zn_props_9 : ∃ G : PyGroup ℕ, Zn 9 = .ok G ∧
    G.e = 0 ∧ G.set.length = 9 ∧ G.abelian = true ∧
    (∀ a ∈ G.set, ∀ b ∈ G.set, groupMul G a b = .ok ((a + b) % 9)) ∧
    (∀ a ∈ G.set, invert G a = .ok ((9 - a) % 9)) :=
  ⟨znG9, rfl, rfl, rfl, rfl, by decide, by decide⟩

/-- C3: for every n in 1..9, `Zn(n)` constructs a group with identity 0,
n elements, the Abelian flag set, products computed as (a + b) mod n,
and the inverse of a equal to (n - a) mod n. -/
theorem c3_Zn_props : ∀ n : ℕ, 1 ≤ n → n ≤ 9 →
    ∃ G : PyGroup ℕ, Zn n = .ok G ∧
      G.e = 0 ∧ G.set.length = n ∧ G.abelian = true ∧
      (∀ a ∈ G.set, ∀ b ∈ G.set, groupMul G a b = .ok ((a + b) % n)) ∧
      (∀ a ∈ G.set, invert G a = .ok ((n - a) % n)) := by
  intro n h1 h9
  interval_cases n
  · exact zn_props_1
  · exact zn_props_2
  · exact zn_props_3
  · exact zn_props_4
  · exact zn_props_5
  · exact zn_props_6
  · exact zn_props_7
  · exact zn_props_8
  · exact zn_props_9

/-- Witness for C3 at n = 2. -/
theorem c3_witness : ∃ G : PyGroup ℕ, Zn 2 = .ok G ∧
    G.e = 0 ∧ G.set.length = 2 ∧ G.abelian = true ∧
    (∀ a ∈ G.set, ∀ b ∈ G.set, groupMul G a b = .ok ((a + b) % 2)) ∧
    (∀ a ∈ G.set, invert G a = .ok ((2 - a) % 2)) :=
  c3_Zn_props 2 (by decide) (by decide)

/-! The `subgroups` computation on `Zn(9)`, stepped through its loop with
every intermediate value a literal. -/

theorem zn9_eq : Zn 9 = .ok znG9 := by rfl

theorem z9_gen_e : generate znG9 [znG9.e] = .ok (z9sub [0]) := by rfl

/-- `mapM` over `Except` succeeds elementwise. -/
theorem mapM_except_cons {α β ε : Type} {f : α → Except ε β} {x : α} {xs : List α}
    {b : β} {bs : List β} (hx : f x = .ok b) (hxs : xs.mapM f = .ok bs) :
    (x :: xs).mapM f = .ok (b :: bs) := by
  rw [List.mapM_cons, hx, hxs]
  rfl

theorem mapM_except_nil {α β ε : Type} (f : α → Except ε β) :
    ([] : List α).mapM f = .ok [] := rfl

/-! The extension subgroups produced during `subgroups(Zn(9))`, one
`generate` per lemma. -/

theorem z9gen01 : generate znG9 (sUnion [0] [1]) = .ok (z9sub [0, 1, 2, 3, 4, 5, 6, 7, 8]) := by rfl

theorem z9gen02 : generate znG9 (sUnion [0] [2]) = .ok (z9sub [0, 2, 4, 6, 8, 1, 3, 5, 7]) := by rfl

theorem z9gen03 : generate znG9 (sUnion [0] [3]) = .ok (z9sub [0, 3, 6]) := by rfl

theorem z9gen04 : generate znG9 (sUnion [0] [4]) = .ok (z9sub [0, 4, 8, 3, 7, 2, 6, 1, 5]) := by rfl

theorem z9gen05 : generate znG9 (sUnion [0] [5]) = .ok (z9sub [0, 5, 1, 6, 2, 7, 3, 8, 4]) := by rfl

theorem z9gen06 : generate znG9 (sUnion [0] [6]) = .ok (z9sub [0, 6, 3]) := by rfl

theorem z9gen07 : generate znG9 (sUnion [0] [7]) = .ok (z9sub [0, 7, 5, 3, 1, 8, 6, 4, 2]) := by rfl

theorem z9gen08 : generate znG9 (sUnion [0] [8]) = .ok (z9sub [0, 8, 7, 6, 5, 4, 3, 2, 1]) := by rfl

theorem z9gen631 : generate znG9 (sUnion [0, 6, 3] [1]) = .ok (z9sub [0, 6, 3, 1, 7, 4, 2, 8, 5]) := by rfl

theorem z9gen632 : generate znG9 (sUnion [0, 6, 3] [2]) = .ok (z9sub [0, 6, 3, 2, 8, 5, 4, 1, 7]) := by rfl

theorem z9gen634 : generate znG9 (sUnion [0, 6, 3] [4]) = .ok (z9sub [0, 6, 3, 4, 1, 7, 8, 5, 2]) := by rfl

theorem z9gen635 : generate znG9 (sUnion [0, 6, 3] [5]) = .ok (z9sub [0, 6, 3, 5, 2, 8, 1, 7, 4]) := by rfl

theorem z9gen637 : generate znG9 (sUnion [0, 6, 3] [7]) = .ok (z9sub [0, 6, 3, 7, 4, 1, 5, 2, 8]) := by rfl

theorem z9gen638 : generate znG9 (sUnion [0, 6, 3] [8]) = .ok (z9sub [0, 6, 3, 8, 5, 2, 7, 4, 1]) := by rfl

theorem z9_pairs1 : [z9sub [0]].flatMap (fun grp =>
    ((groupIter znG9).filter (fun x => decide (x ∉ grp.set))).map (fun x => (grp, x))) =
    [(z9sub [0], 1), (z9sub [0], 2), (z9sub [0], 3), (z9sub [0], 4), (z9sub [0], 5), (z9sub [0], 6), (z9sub [0], 7), (z9sub [0], 8)] := by rfl

set_option maxHeartbeats 1000000 in
theorem z9_pairs2 : [z9sub [0], z9sub [0, 6, 3], z9sub [0, 8, 7, 6, 5, 4, 3, 2, 1]].flatMap (fun grp =>
    ((groupIter znG9).filter (fun x => decide (x ∉ grp.set))).map (fun x => (grp, x))) =
    [(z9sub [0], 1), (z9sub [0], 2), (z9sub [0], 3), (z9sub [0], 4), (z9sub [0], 5), (z9sub [0], 6), (z9sub [0], 7), (z9sub [0], 8), (z9sub [0, 6, 3], 1), (z9sub [0, 6, 3], 2), (z9sub [0, 6, 3], 4), (z9sub [0, 6, 3], 5), (z9sub [0, 6, 3], 7), (z9sub [0, 6, 3], 8)] := by rfl

theorem z9_step1 : sgStep znG9 [z9sub [0]] =
    .ok [z9sub [0, 1, 2, 3, 4, 5, 6, 7, 8], z9sub [0, 2, 4, 6, 8, 1, 3, 5, 7], z9sub [0, 3, 6], z9sub [0, 4, 8, 3, 7, 2, 6, 1, 5], z9sub [0, 5, 1, 6, 2, 7, 3, 8, 4], z9sub [0, 6, 3], z9sub [0, 7, 5, 3, 1, 8, 6, 4, 2], z9sub [0, 8, 7, 6, 5, 4, 3, 2, 1]] := by
  rw [sgStep, z9_pairs1]
  exact mapM_except_cons z9gen01 (mapM_except_cons z9gen02 (mapM_except_cons z9gen03 (mapM_except_cons z9gen04 (mapM_except_cons z9gen05 (mapM_except_cons z9gen06 (mapM_except_cons z9gen07 (mapM_except_cons z9gen08 (mapM_except_nil _))))))))

theorem z9_step2 : sgStep znG9 [z9sub [0], z9sub [0, 6, 3], z9sub [0, 8, 7, 6, 5, 4, 3, 2, 1]] =
    .ok [z9sub [0, 1, 2, 3, 4, 5, 6, 7, 8], z9sub [0, 2, 4, 6, 8, 1, 3, 5, 7], z9sub [0, 3, 6], z9sub [0, 4, 8, 3, 7, 2, 6, 1, 5], z9sub [0, 5, 1, 6, 2, 7, 3, 8, 4], z9sub [0, 6, 3], z9sub [0, 7, 5, 3, 1, 8, 6, 4, 2], z9sub [0, 8, 7, 6, 5, 4, 3, 2, 1], z9sub [0, 6, 3, 1, 7, 4, 2, 8, 5], z9sub [0, 6, 3, 2, 8, 5, 4, 1, 7], z9sub [0, 6, 3, 4, 1, 7, 8, 5, 2], z9sub [0, 6, 3, 5, 2, 8, 1, 7, 4], z9sub [0, 6, 3, 7, 4, 1, 5, 2, 8], z9sub [0, 6, 3, 8, 5, 2, 7, 4, 1]] := by
  rw [sgStep, z9_pairs2]
  exact mapM_except_cons z9gen01 (mapM_except_cons z9gen02 (mapM_except_cons z9gen03 (mapM_except_cons z9gen04 (mapM_except_cons z9gen05 (mapM_except_cons z9gen06 (mapM_except_cons z9gen07 (mapM_except_cons z9gen08 (mapM_except_cons z9gen631 (mapM_except_cons z9gen632 (mapM_except_cons z9gen634 (mapM_except_cons z9gen635 (mapM_except_cons z9gen637 (mapM_except_cons z9gen638 (mapM_except_nil _))))))))))))))

set_option maxHeartbeats 2000000 in
theorem z9_mg1 : mkSetGrp [z9sub [0, 1, 2, 3, 4, 5, 6, 7, 8], z9sub [0, 2, 4, 6, 8, 1, 3, 5, 7], z9sub [0, 3, 6], z9sub [0, 4, 8, 3, 7, 2, 6, 1, 5], z9sub [0, 5, 1, 6, 2, 7, 3, 8, 4], z9sub [0, 6, 3], z9sub [0, 7, 5, 3, 1, 8, 6, 4, 2], z9sub [0, 8, 7, 6, 5, 4, 3, 2, 1]] =
    [z9sub [0, 6, 3], z9sub [0, 8, 7, 6, 5, 4, 3, 2, 1]] := by rfl

theorem z9_u1 : sUnionGrp [z9sub [0]] ([] : List (PyGroup ℕ)) = [z9sub [0]] := by rfl

theorem z9_u2 : sUnionGrp [z9sub [0]] [z9sub [0, 6, 3], z9sub [0, 8, 7, 6, 5, 4, 3, 2, 1]] =
    [z9sub [0], z9sub [0, 6, 3], z9sub [0, 8, 7, 6, 5, 4, 3, 2, 1]] := by rfl

theorem z9_e1 : sEqGrpB [z9sub [0]] ([] : List (PyGroup ℕ)) = false := by rfl

set_option maxHeartbeats 2000000 in
theorem z9_e2 : sEqGrpB [z9sub [0]] [z9sub [0], z9sub [0, 6, 3], z9sub [0, 8, 7, 6, 5, 4, 3, 2, 1]] = false := by rfl

set_option maxHeartbeats 2000000 in
theorem z9_u3 : sUnionGrp [z9sub [0]] [z9sub [0], z9sub [0, 6, 3], z9sub [0, 8, 7, 6, 5, 4, 3, 2, 1]] = [z9sub [0], z9sub [0, 6, 3], z9sub [0, 8, 7, 6, 5, 4, 3, 2, 1]] := by rfl

set_option maxHeartbeats 2000000 in
theorem z9_mg2 : mkSetGrp [z9sub [0, 1, 2, 3, 4, 5, 6, 7, 8], z9sub [0, 2, 4, 6, 8, 1, 3, 5, 7], z9sub [0, 3, 6], z9sub [0, 4, 8, 3, 7, 2, 6, 1, 5], z9sub [0, 5, 1, 6, 2, 7, 3, 8, 4], z9sub [0, 6, 3], z9sub [0, 7, 5, 3, 1, 8, 6, 4, 2], z9sub [0, 8, 7, 6, 5, 4, 3, 2, 1], z9sub [0, 6, 3, 1, 7, 4, 2, 8, 5], z9sub [0, 6, 3, 2, 8, 5, 4, 1, 7], z9sub [0, 6, 3, 4, 1, 7, 8, 5, 2], z9sub [0, 6, 3, 5, 2, 8, 1, 7, 4], z9sub [0, 6, 3, 7, 4, 1, 5, 2, 8], z9sub [0, 6, 3, 8, 5, 2, 7, 4, 1]] =
    [z9sub [0, 6, 3], z9sub [0, 6, 3, 8, 5, 2, 7, 4, 1]] := by rfl

set_option maxHeartbeats 2000000 in
theorem z9_u4 : sUnionGrp [z9sub [0], z9sub [0, 6, 3], z9sub [0, 8, 7, 6, 5, 4, 3, 2, 1]] [z9sub [0, 6, 3], z9sub [0, 6, 3, 8, 5, 2, 7, 4, 1]] = [z9sub [0], z9sub [0, 6, 3], z9sub [0, 8, 7, 6, 5, 4, 3, 2, 1]] := by rfl

set_option maxHeartbeats 2000000 in
theorem z9_e3 : sEqGrpB [z9sub [0], z9sub [0, 6, 3], z9sub [0, 8, 7, 6, 5, 4, 3, 2, 1]] [z9sub [0], z9sub [0, 6, 3], z9sub [0, 8, 7, 6, 5, 4, 3, 2, 1]] = true := by rfl

theorem z9_sgLoop : sgLoop znG9 12 [z9sub [0]] [] = .ok (some [z9sub [0], z9sub [0, 6, 3], z9sub [0, 8, 7, 6, 5, 4, 3, 2, 1]]) := by
  rw [show (12 : ℕ) = 11 + 1 from rfl, sgLoop]
  rw [if_neg (by simp [z9_e1])]
  rw [z9_u1, z9_step1]
  show sgLoop znG9 11 [z9sub [0]]
    (sUnionGrp [z9sub [0]] (mkSetGrp [z9sub [0, 1, 2, 3, 4, 5, 6, 7, 8], z9sub [0, 2, 4, 6, 8, 1, 3, 5, 7], z9sub [0, 3, 6], z9sub [0, 4, 8, 3, 7, 2, 6, 1, 5], z9sub [0, 5, 1, 6, 2, 7, 3, 8, 4], z9sub [0, 6, 3], z9sub [0, 7, 5, 3, 1, 8, 6, 4, 2], z9sub [0, 8, 7, 6, 5, 4, 3, 2, 1]])) = _
  rw [z9_mg1, z9_u2]
  rw [show (11 : ℕ) = 10 + 1 from rfl, sgLoop]
  rw [if_neg (by simp [z9_e2])]
  rw [z9_u3, z9_step2]
  show sgLoop znG9 10 [z9sub [0], z9sub [0, 6, 3], z9sub [0, 8, 7, 6, 5, 4, 3, 2, 1]]
    (sUnionGrp [z9sub [0], z9sub [0, 6, 3], z9sub [0, 8, 7, 6, 5, 4, 3, 2, 1]] (mkSetGrp [z9sub [0, 1, 2, 3, 4, 5, 6, 7, 8], z9sub [0, 2, 4, 6, 8, 1, 3, 5, 7], z9sub [0, 3, 6], z9sub [0, 4, 8, 3, 7, 2, 6, 1, 5], z9sub [0, 5, 1, 6, 2, 7, 3, 8, 4], z9sub [0, 6, 3], z9sub [0, 7, 5, 3, 1, 8, 6, 4, 2], z9sub [0, 8, 7, 6, 5, 4, 3, 2, 1], z9sub [0, 6, 3, 1, 7, 4, 2, 8, 5], z9sub [0, 6, 3, 2, 8, 5, 4, 1, 7], z9sub [0, 6, 3, 4, 1, 7, 8, 5, 2], z9sub [0, 6, 3, 5, 2, 8, 1, 7, 4], z9sub [0, 6, 3, 7, 4, 1, 5, 2, 8], z9sub [0, 6, 3, 8, 5, 2, 7, 4, 1]])) = _
  rw [z9_mg2, z9_u4]
  rw [show (10 : ℕ) = 9 + 1 from rfl, sgLoop, if_pos z9_e3]

theorem z9_subgroups : subgroups znG9 = .ok (some [z9sub [0], z9sub [0, 6, 3], z9sub [0, 8, 7, 6, 5, 4, 3, 2, 1]]) := by
  rw [subgroups, z9_gen_e]
  show sgLoop znG9 12 [z9sub [0]] [] = _
  exact z9_sgLoop

/-- C4: `subgroups()` of `Zn(9)` stabilises and returns exactly 3
subgroups, of orders 1, 3 and 9, and each returned subgroup re-passes
the `Group.__init__` checks with its own element set and operation. -/
theorem c4_subgroups_Z9 :
    ∃ (G : PyGroup ℕ) (L : List (PyGroup ℕ)), Zn 9 = .ok G ∧
      subgroups G = .ok (some L) ∧
      L.length = 3 ∧
      L.map (fun H => H.set.length) = [1, 3, 9] ∧
      L.all (fun H => isOk (groupInit H.set H.bin_op none false)) = true :=
  ⟨znG9, [z9sub [0], z9sub [0, 6, 3], z9sub [0, 8, 7, 6, 5, 4, 3, 2, 1]], zn9_eq, z9_subgroups, rfl, by decide, by decide⟩

/-! ## C1: which failures `Group.__init__` really rejects -/

/-- Full associativity over all ordered triples, following the claim's
words "whenever the binary operation is non-associative".  Compare with
`assocOk`, which tests only the nondecreasing-index triples produced by
`utils.combos(self.set, 3)`. -/
def assocAll {α : Type} [DecidableEq α] (els : List α) (fn : α × α → α) : Bool :=
  els.all (fun a => els.all (fun b => els.all (fun c =>
    decide (fn (a, fn (b, c)) = fn (fn (a, b), c)))))

/-- A non-associative operation on {0, 1, 2}: 0 is a two-sided identity,
1*1 = 0, 1*2 = 2, 2*1 = 0, 2*2 = 2.  It fails associativity at the
triple (1, 2, 1), which `utils.combos` never produces. -/
def c1fn : ℕ × ℕ → ℕ
  | (0, b) => b
  | (a, 0) => a
  | (1, 1) => 0
  | (1, 2) => 2
  | (2, 1) => 0
  | (2, 2) => 2
  | _ => 0

/-- A successfully constructed group with a display order has a display
order whose element set matches the group's elements. -/
theorem groupInit_ok_display {α : Type} [DecidableEq α] {els : List α}
    {f : BinFunc α} {ord : List α} {skip : Bool} {G : PyGroup α}
    (h : groupInit els f (some ord) skip = .ok G) :
    sEqB (mkSet ord) els = true := by
  rw [groupInit] at h
  by_cases h1 : domainOk els f = true
  case neg => rw [if_pos (fun hh => h1 hh)] at h; exact absurd h (by simp)
  rw [if_neg (fun hh => hh h1)] at h
  by_cases h2 : closureOk els f = true
  case neg => rw [if_pos (fun hh => h2 hh)] at h; exact absurd h (by simp)
  rw [if_neg (fun hh => hh h2)] at h
  rcases hid : identitiesList els f.fn with _ | ⟨e, _ | ⟨e2, rest⟩⟩
  · simp only [hid] at h; exact absurd h (by simp)
  · simp only [hid] at h
    by_cases h4 : skip = false ∧ ¬ (assocOk els f.fn = true)
    case pos => rw [if_pos h4] at h; exact absurd h (by simp)
    rw [if_neg h4] at h
    by_cases h5 : inversesOk els f.fn e = true
    case neg => rw [if_pos h5] at h; exact absurd h (by simp)
    rw [if_neg (fun hh => hh h5)] at h
    rw [displayStep] at h
    by_cases h6 : sEqB (mkSet ord) els = true
    case pos => exact h6
    rw [if_pos (fun hh => h6 hh)] at h
    exact absurd h (by simp)
  · simp only [hid] at h; exact absurd h (by simp)

/-- C1 (corrected): construction fails whenever the binary operation
fails the associativity check over `utils.combos(set, 3)` (with the skip
flag unset), there are zero or several identity elements, some element
lacks a right inverse, or the display order's element set disagrees with
the group's elements.  The original claim's "whenever the binary
operation is non-associative" is weakened to the combos-triple check:
the counterexample operation is non-associative yet constructs fine. -/
theorem c1_groupInit_fails {α : Type} [DecidableEq α] (els : List α)
    (f : BinFunc α) (d : Option (List α)) (skip : Bool)
    (h : (skip = false ∧ assocOk els f.fn = false) ∨
         identitiesList els f.fn = [] ∨
         (∃ e1 e2 rest, identitiesList els f.fn = e1 :: e2 :: rest) ∨
         (∀ e, identitiesList els f.fn = [e] → inversesOk els f.fn e = false) ∨
         (∃ l, d = some l ∧ sEqB (mkSet l) els = false)) :
    isOk (groupInit els f d skip) = false := by
  cases hg : groupInit els f d skip with
  | error err => rfl
  | ok G =>
    exfalso
    rcases groupInit_ok_inv hg with ⟨-, -, -, -, hid, hassoc, hinv⟩
    rcases h with ⟨hs, ha⟩ | h0 | ⟨e1, e2, rest, hmulti⟩ | hnoinv | ⟨l, rfl, hdisp⟩
    · rw [hassoc hs] at ha
      cases ha
    · rw [h0] at hid
      cases hid
    · rw [hid] at hmulti
      exact absurd hmulti (by simp)
    · have hbad := hnoinv G.e hid
      rw [hinv] at hbad
      cases hbad
    · have := groupInit_ok_display hg
      rw [hdisp] at this
      cases this

/-- Witness for C1: a mismatching display order makes construction of
the two-element group fail. -/
theorem c1_witness :
    isOk (groupInit [0, 1] ⟨setSq [0, 1], [0, 1], fun p => (p.1 + p.2) % 2⟩
      (some [0]) false) = false :=
  c1_groupInit_fails _ _ _ _
    (Or.inr (Or.inr (Or.inr (Or.inr ⟨[0], rfl, by decide⟩))))

/-- Counterexample for C1 as stated: the operation `c1fn` is
non-associative, yet `Function.__init__` and `Group.__init__` both
succeed (with checks on), because `utils.combos(set, 3)` omits the
failing triple (1, 2, 1). -/
theorem c1_counterexample :
    (∃ f, funcInit (setSq [0, 1, 2]) [0, 1, 2] c1fn = .ok f ∧
      isOk (groupInit [0, 1, 2] f none false) = true) ∧
    assocAll [0, 1, 2] c1fn = false :=
  ⟨⟨_, rfl, by decide⟩, by decide⟩

/-! ## C6: what the construction checks really guarantee -/

/-- Inversion of `Function.__init__`: a successfully built function is
exactly the record of its arguments, and its image check passed. -/
theorem funcInit_ok_inv {α : Type} [DecidableEq α] {dom : List (α × α)}
    {cod : List α} {fn : α × α → α} {f : BinFunc α}
    (h : funcInit dom cod fn = .ok f) :
    f = ⟨dom, cod, fn⟩ ∧ funcImageOk dom cod fn = true := by
  rw [funcInit] at h
  by_cases hc : funcImageOk dom cod fn = true
  · rw [if_pos hc] at h
    injection h with h1
    exact ⟨h1.symm, hc⟩
  · rw [if_neg hc] at h
    exact absurd h (by simp)

/-- C6 (corrected): a successfully constructed group (whose `bin_op` came
from `Function.__init__`) satisfies `elements ⊆ bin_op.codomain` — via the
codomain image check plus the identity equation `a = a * e` — and
`elements**2 ⊆ bin_op.domain`, and a domain violation makes construction
fail; but equality `bin_op.codomain == elements` is never checked and can
fail (see the counterexample, a group whose codomain has an extra
element). -/
theorem c6_codomain_domain {α : Type} [DecidableEq α] {dom : List (α × α)}
    {cod : List α} {fn : α × α → α} {f : BinFunc α} {els : List α}
    {d : Option (List α)} {skip : Bool} {G : PyGroup α}
    (hf : funcInit dom cod fn = .ok f)
    (hg : groupInit els f d skip = .ok G) :
    (∀ x ∈ els, x ∈ cod) ∧ domainOk els f = true ∧
      (∀ f2 : BinFunc α, domainOk els f2 = false →
        groupInit els f2 d skip = .error (.valueError
          "The binary operation must have all element pairs in its domain.")) := by
  rcases funcInit_ok_inv hf with ⟨rfl, him⟩
  rcases groupInit_ok_inv hg with ⟨hset, hbin, hdom, hcl, hid, hassoc, hinv⟩
  refine ⟨?_, hdom, ?_⟩
  · intro x hx
    have hidmem : G.e ∈ identitiesList els (BinFunc.mk dom cod fn).fn := by
      rw [hid]
      exact List.mem_cons_self _ _
    rw [identitiesList] at hidmem
    rcases List.mem_filter.1 hidmem with ⟨hemem, hpred⟩
    rw [List.all_eq_true] at hpred
    have hxe := hpred x hx
    rw [Bool.and_eq_true, decide_eq_true_eq, decide_eq_true_eq] at hxe
    have hdommem : (x, G.e) ∈ dom := by
      rw [domainOk] at hdom
      exact sSubB_iff.1 hdom _ (mem_setSq.2 ⟨hx, hemem⟩)
    rw [funcImageOk, List.all_eq_true] at him
    have hin := him _ hdommem
    rw [decide_eq_true_eq] at hin
    rw [← hxe.2]
    exact hin
  · intro f2 hbad
    rw [groupInit,
      if_pos (show ¬ (domainOk els f2 = true) by rw [hbad]; exact fun hh => by cases hh)]

/-- Witness for C6 on the two-element group with matching codomain. -/
theorem c6_witness :
    (∀ x ∈ [0, 1], x ∈ [0, 1]) ∧
    domainOk [0, 1] (⟨setSq [0, 1], [0, 1], fun p => (p.1 + p.2) % 2⟩ : BinFunc ℕ) = true ∧
    (∀ f2 : BinFunc ℕ, domainOk [0, 1] f2 = false →
      groupInit [0, 1] f2 none false = .error (.valueError
        "The binary operation must have all element pairs in its domain.")) :=
  @c6_codomain_domain ℕ _ (setSq [0, 1]) [0, 1] (fun p => (p.1 + p.2) % 2) _ [0, 1]
    none false _ rfl rfl

/-- Counterexample for C6's equality reading: the codomain [0, 1, 5]
strictly contains the elements [0, 1], yet both `Function.__init__` and
`Group.__init__` succeed — `bin_op.codomain == elements` is never
verified. -/
theorem c6_counterexample :
    ∃ f, funcInit (setSq [0, 1]) [0, 1, 5] (fun p => (p.1 + p.2) % 2) = .ok f ∧
      ∃ G, groupInit [0, 1] f none false = .ok G ∧ sEqB f.cod G.set = false :=
  ⟨_, rfl, _, rfl, by decide⟩

/-- C5 (code bug): `Group.is_cyclic` calls `e.order()`, but
`Element.order` exists in `element.py` only as a commented-out TODO, so
every call raises `AttributeError` and `is_cyclic` never returns a
boolean.  Modelled from the spec (order = `len(self.group.generate([self]))`),
the intended computation on `Zn(3)` would find a generator and return
True. -/
theorem c5_is_cyclic_model :
    ∃ G : PyGroup ℕ, Zn 3 = .ok G ∧ isCyclicModel G = .ok true :=
  ⟨znG3, rfl, by rfl⟩

/-! ## C2: `Group.generate` returns the smallest subgroup

The hypotheses bundle the facts that hold of a genuine group object: the
construction checks of `Group.__init__` (closure, two-sided identity,
right inverses) plus duplicate-freeness of the element list (Python
elements live in a frozenset) and full associativity (which
`Group.__init__` samples only on sorted triples — see C1). -/

/-- The group laws of a successfully constructed, genuinely associative
group, over its element list `Gs`, operation `fn` and identity `e`. -/
structure GroupFacts {α : Type} (fn : α × α → α) (e : α) (Gs : List α) : Prop where
  cl : ∀ a ∈ Gs, ∀ b ∈ Gs, fn (a, b) ∈ Gs
  assoc : ∀ a ∈ Gs, ∀ b ∈ Gs, ∀ c ∈ Gs, fn (a, fn (b, c)) = fn (fn (a, b), c)
  emem : e ∈ Gs
  idL : ∀ a ∈ Gs, fn (e, a) = a
  idR : ∀ a ∈ Gs, fn (a, e) = a
  inv : ∀ a ∈ Gs, ∃ b, b ∈ Gs ∧ fn (a, b) = e

/-- Iterated products `x^k` under `fn` (`x^0 = e`). -/
def gpow {α : Type} (fn : α × α → α) (e x : α) : ℕ → α
  | 0 => e
  | k + 1 => fn (gpow fn e x k, x)

theorem gpow_mem {α : Type} {fn : α × α → α} {e : α} {Gs : List α}
    (hG : GroupFacts fn e Gs) {x : α} (hx : x ∈ Gs) (k : ℕ) :
    gpow fn e x k ∈ Gs := by
  induction k with
  | zero => exact hG.emem
  | succ k ih => exact hG.cl _ ih x hx

theorem gpow_one {α : Type} {fn : α × α → α} {e : α} {Gs : List α}
    (hG : GroupFacts fn e Gs) {x : α} (hx : x ∈ Gs) : gpow fn e x 1 = x :=
  hG.idL x hx

theorem gpow_add {α : Type} {fn : α × α → α} {e : α} {Gs : List α}
    (hG : GroupFacts fn e Gs) {x : α} (hx : x ∈ Gs) (k m : ℕ) :
    fn (gpow fn e x k, gpow fn e x m) = gpow fn e x (k + m) := by
  induction m with
  | zero => exact hG.idR _ (gpow_mem hG hx k)
  | succ m ih =>
    show fn (gpow fn e x k, fn (gpow fn e x m, x)) = gpow fn e x (k + (m + 1))
    rw [hG.assoc _ (gpow_mem hG hx k) _ (gpow_mem hG hx m) x hx, ih]
    rfl

theorem right_cancel {α : Type} {fn : α × α → α} {e : α} {Gs : List α}
    (hG : GroupFacts fn e Gs) {a x y : α} (ha : a ∈ Gs) (hx : x ∈ Gs)
    (hy : y ∈ Gs) (h : fn (x, a) = fn (y, a)) : x = y := by
  obtain ⟨b, hbG, hab⟩ := hG.inv a ha
  calc x = fn (x, e) := (hG.idR x hx).symm
    _ = fn (x, fn (a, b)) := by rw [hab]
    _ = fn (fn (x, a), b) := hG.assoc x hx a ha b hbG
    _ = fn (fn (y, a), b) := by rw [h]
    _ = fn (y, fn (a, b)) := (hG.assoc y hy a ha b hbG).symm
    _ = fn (y, e) := by rw [hab]
    _ = y := hG.idR y hy

theorem fn_left_inv {α : Type} {fn : α × α → α} {e : α} {Gs : List α}
    (hG : GroupFacts fn e Gs) {a b : α} (ha : a ∈ Gs) (hb : b ∈ Gs)
    (hab : fn (a, b) = e) : fn (b, a) = e := by
  obtain ⟨c, hcG, hbc⟩ := hG.inv b hb
  have hbaG : fn (b, a) ∈ Gs := hG.cl b hb a ha
  calc fn (b, a) = fn (fn (b, a), e) := (hG.idR _ hbaG).symm
    _ = fn (fn (b, a), fn (b, c)) := by rw [hbc]
    _ = fn (fn (fn (b, a), b), c) := hG.assoc _ hbaG b hb c hcG
    _ = fn (fn (b, fn (a, b)), c) := by rw [hG.assoc b hb a ha b hb]
    _ = fn (fn (b, e), c) := by rw [hab]
    _ = fn (b, c) := by rw [hG.idR b hb]
    _ = e := hbc

theorem left_cancel {α : Type} {fn : α × α → α} {e : α} {Gs : List α}
    (hG : GroupFacts fn e Gs) {a x y : α} (ha : a ∈ Gs) (hx : x ∈ Gs)
    (hy : y ∈ Gs) (h : fn (a, x) = fn (a, y)) : x = y := by
  obtain ⟨b, hbG, hab⟩ := hG.inv a ha
  have hba : fn (b, a) = e := fn_left_inv hG ha hbG hab
  calc x = fn (e, x) := (hG.idL x hx).symm
    _ = fn (fn (b, a), x) := by rw [hba]
    _ = fn (b, fn (a, x)) := (hG.assoc b hbG a ha x hx).symm
    _ = fn (b, fn (a, y)) := by rw [h]
    _ = fn (fn (b, a), y) := hG.assoc b hbG a ha y hy
    _ = fn (e, y) := by rw [hba]
    _ = y := hG.idL y hy

theorem pow_diff {α : Type} {fn : α × α → α} {e : α} {Gs : List α}
    (hG : GroupFacts fn e Gs) {x : α} (hx : x ∈ Gs) {i j : ℕ} (hlt : i < j)
    (heq : gpow fn e x (i + 1) = gpow fn e x (j + 1)) :
    ∃ m, 1 ≤ m ∧ gpow fn e x m = e := by
  refine ⟨j - i, by omega, ?_⟩
  have h1 : fn (gpow fn e x (i + 1), gpow fn e x (j - i)) = gpow fn e x (j + 1) := by
    rw [gpow_add hG hx]
    congr 1
    omega
  have h2 : fn (gpow fn e x (i + 1), e) = gpow fn e x (i + 1) :=
    hG.idR _ (gpow_mem hG hx _)
  apply left_cancel hG (gpow_mem hG hx (i + 1)) (gpow_mem hG hx (j - i)) hG.emem
  rw [h1, h2]
  exact heq.symm

/-- Pigeonhole: in a finite group every element has `x^m = e` for some
`m ≥ 1`. -/
theorem exists_pow_eq_e {α : Type} [DecidableEq α] {fn : α × α → α} {e : α}
    {Gs : List α} (hG : GroupFacts fn e Gs) {x : α} (hx : x ∈ Gs) :
    ∃ m, 1 ≤ m ∧ gpow fn e x m = e := by
  have hmaps : ∀ i ∈ Finset.range (Gs.length + 1),
      gpow fn e x (i + 1) ∈ Gs.toFinset :=
    fun i _ => List.mem_toFinset.2 (gpow_mem hG hx (i + 1))
  have hcard : Gs.toFinset.card < (Finset.range (Gs.length + 1)).card := by
    rw [Finset.card_range]
    have := Gs.toFinset_card_le
    omega
  obtain ⟨i, hi, j, hj, hne, heq⟩ :=
    Finset.exists_ne_map_eq_of_card_lt_of_maps_to hcard hmaps
  rcases lt_or_gt_of_ne hne with hlt | hgt
  · exact pow_diff hG hx hlt heq
  · exact pow_diff hG hx hgt heq.symm

theorem gpow_mem_T {α : Type} [DecidableEq α] {fn : α × α → α} {e : α}
    {Gs T : List α} (hG : GroupFacts fn e Gs) (hTsub : ∀ z ∈ T, z ∈ Gs)
    (hOr : ∀ a ∈ T, ∀ b ∈ T, fn (a, b) ∈ T ∨ fn (b, a) ∈ T)
    {x : α} (hx : x ∈ T) : ∀ k, 1 ≤ k → gpow fn e x k ∈ T := by
  intro k
  induction k with
  | zero => intro h; omega
  | succ k ih =>
    intro _
    by_cases hk0 : k = 0
    · subst hk0
      rw [Nat.zero_add, gpow_one hG (hTsub x hx)]
      exact hx
    · have hk : gpow fn e x k ∈ T := ih (by omega)
      rcases hOr _ hk x hx with h | h
      · exact h
      · have h2 : fn (x, gpow fn e x k) = gpow fn e x (k + 1) := by
          have h3 := gpow_add hG (hTsub x hx) 1 k
          rw [gpow_one hG (hTsub x hx)] at h3
          rw [h3]
          congr 1
          omega
        rw [← h2]
        exact h

theorem e_mem_T {α : Type} [DecidableEq α] {fn : α × α → α} {e : α}
    {Gs T : List α} (hG : GroupFacts fn e Gs) (hTsub : ∀ z ∈ T, z ∈ Gs)
    (hOr : ∀ a ∈ T, ∀ b ∈ T, fn (a, b) ∈ T ∨ fn (b, a) ∈ T)
    {x : α} (hx : x ∈ T) : e ∈ T := by
  obtain ⟨m, hm1, hme⟩ := exists_pow_eq_e hG (hTsub x hx)
  have h2 := gpow_mem_T hG hTsub hOr hx m hm1
  rw [hme] at h2
  exact h2

theorem inv_mem_T {α : Type} [DecidableEq α] {fn : α × α → α} {e : α}
    {Gs T : List α} (hG : GroupFacts fn e Gs) (hTsub : ∀ z ∈ T, z ∈ Gs)
    (hOr : ∀ a ∈ T, ∀ b ∈ T, fn (a, b) ∈ T ∨ fn (b, a) ∈ T)
    {x : α} (hx : x ∈ T) :
    ∃ y, y ∈ T ∧ fn (x, y) = e ∧ fn (y, x) = e := by
  obtain ⟨m, hm1, hme⟩ := exists_pow_eq_e hG (hTsub x hx)
  by_cases hm : m = 1
  · subst hm
    have hxe : x = e := by rw [← gpow_one hG (hTsub x hx)]; exact hme
    refine ⟨x, hx, ?_, ?_⟩ <;> rw [hxe] <;> exact hG.idR e hG.emem
  · refine ⟨gpow fn e x (m - 1), gpow_mem_T hG hTsub hOr hx (m - 1) (by omega),
      ?_, ?_⟩
    · have h3 := gpow_add hG (hTsub x hx) 1 (m - 1)
      rw [gpow_one hG (hTsub x hx)] at h3
      rw [h3, show 1 + (m - 1) = m by omega]
      exact hme
    · have h3 := gpow_add hG (hTsub x hx) (m - 1) 1
      rw [gpow_one hG (hTsub x hx)] at h3
      rw [h3, show m - 1 + 1 = m by omega]
      exact hme

/-- The key closure lemma behind `generate`: a duplicate-free subset of a
finite group that contains the product of every pair taken at
nondecreasing list positions (the pairs `utils.combos(…, 2)` yields) is
closed under all products. -/
theorem sorted_closed_full {α : Type} [DecidableEq α] {fn : α × α → α}
    {e : α} {Gs : List α} (hG : GroupFacts fn e Gs) (T : List α)
    (hTsub : ∀ z ∈ T, z ∈ Gs) (hTnd : T.Nodup)
    (hsorted : ∀ i j (hij : i ≤ j) (hj : j < T.length),
      fn (T.get ⟨i, lt_of_le_of_lt hij hj⟩, T.get ⟨j, hj⟩) ∈ T) :
    ∀ a ∈ T, ∀ b ∈ T, fn (a, b) ∈ T := by
  have hOr : ∀ a ∈ T, ∀ b ∈ T, fn (a, b) ∈ T ∨ fn (b, a) ∈ T := by
    intro a ha b hb
    rcases List.mem_iff_get.1 ha with ⟨⟨i, hi⟩, rfl⟩
    rcases List.mem_iff_get.1 hb with ⟨⟨j, hj⟩, rfl⟩
    rcases le_total i j with hij | hji
    · exact Or.inl (hsorted i j hij hj)
    · exact Or.inr (hsorted j i hji hi)
  by_contra hbad
  push_neg at hbad
  obtain ⟨a0, ha0, b0, hb0, hab0⟩ := hbad
  classical
  set Bad : Finset (Fin T.length) :=
    Finset.univ.filter (fun i => ∃ y ∈ T, fn (T.get i, y) ∉ T) with hBadDef
  have hBadNe : Bad.Nonempty := by
    rcases List.mem_iff_get.1 ha0 with ⟨ia, hia⟩
    refine ⟨ia, ?_⟩
    rw [hBadDef]
    simp only [Finset.mem_filter, Finset.mem_univ, true_and]
    exact ⟨b0, hb0, by rw [hia]; exact hab0⟩
  have himax_mem := Bad.max'_mem hBadNe
  have himax_max : ∀ j ∈ Bad, j ≤ Bad.max' hBadNe := fun j hj => Finset.le_max' Bad j hj
  set imax := Bad.max' hBadNe with himax_def
  set a := T.get imax with ha_def
  have haT : a ∈ T := List.get_mem _ _ _
  have haG : a ∈ Gs := hTsub a haT
  have hmul : ∀ b ∈ T, fn (b, a) ∈ T := by
    intro b hb
    rcases List.mem_iff_get.1 hb with ⟨j, rfl⟩
    rcases le_or_lt (j : ℕ) (imax : ℕ) with hle | hgt
    · exact hsorted j imax hle imax.isLt
    · by_cases hjbad : j ∈ Bad
      · have h2 : (j : ℕ) ≤ (imax : ℕ) := himax_max j hjbad
        omega
      · rw [hBadDef] at hjbad
        simp only [Finset.mem_filter, Finset.mem_univ, true_and] at hjbad
        push_neg at hjbad
        exact hjbad a haT
  have hinj : ∀ b1 ∈ T, ∀ b2 ∈ T, fn (b1, a) = fn (b2, a) → b1 = b2 :=
    fun b1 h1 b2 h2 heq => right_cancel hG haG (hTsub b1 h1) (hTsub b2 h2) heq
  set L : List α := T.map (fun b => fn (b, a)) with hLdef
  have hLsub : ∀ z ∈ L, z ∈ T := by
    intro z hz
    rcases List.mem_map.1 hz with ⟨b, hb, rfl⟩
    exact hmul b hb
  have hLnd : L.Nodup := List.Nodup.map_on hinj hTnd
  have hLlen : L.length = T.length := List.length_map _ _
  have hTL : ∀ t ∈ T, t ∈ L := by
    have h1 : L.toFinset ⊆ T.toFinset :=
      fun z hz => List.mem_toFinset.2 (hLsub z (List.mem_toFinset.1 hz))
    have h2 : T.toFinset.card ≤ L.toFinset.card := by
      rw [List.toFinset_card_of_nodup hTnd, List.toFinset_card_of_nodup hLnd, hLlen]
    have h3 : L.toFinset = T.toFinset :=
      Finset.eq_of_subset_of_card_le h1 h2
    intro t ht
    have h4 : t ∈ L.toFinset := by rw [h3]; exact List.mem_toFinset.2 ht
    exact List.mem_toFinset.1 h4
  rw [hBadDef] at himax_mem
  simp only [Finset.mem_filter, Finset.mem_univ, true_and] at himax_mem
  obtain ⟨y0, hy0T, hy0bad⟩ := himax_mem
  obtain ⟨y0i, hy0iT, hy0r, hy0l⟩ := inv_mem_T hG hTsub hOr hy0T
  rcases List.mem_map.1 (hTL y0i hy0iT) with ⟨s, hsT, hs_eq⟩
  obtain ⟨si, hsiT, hsir, hsil⟩ := inv_mem_T hG hTsub hOr hsT
  have hy0G : y0 ∈ Gs := hTsub y0 hy0T
  have hay0G : fn (a, y0) ∈ Gs := hG.cl a haG y0 hy0G
  have key : fn (s, fn (a, y0)) = e := by
    rw [hG.assoc s (hTsub s hsT) a haG y0 hy0G, hs_eq]
    exact hy0l
  have hfinal : fn (a, y0) = si := by
    calc fn (a, y0) = fn (e, fn (a, y0)) := (hG.idL _ hay0G).symm
      _ = fn (fn (si, s), fn (a, y0)) := by rw [hsil]
      _ = fn (si, fn (s, fn (a, y0))) :=
          (hG.assoc si (hTsub si hsiT) s (hTsub s hsT) _ hay0G).symm
      _ = fn (si, e) := by rw [key]
      _ = si := hG.idR si (hTsub si hsiT)
  exact hy0bad (by rw [hfinal]; exact hsiT)

theorem nodup_length_le {α : Type} [DecidableEq α] {l L : List α} (h : l.Nodup)
    (hsub : ∀ x ∈ l, x ∈ L) : l.length ≤ L.length := by
  have h1 : l.toFinset.card = l.length := List.toFinset_card_of_nodup h
  have h2 : l.toFinset ⊆ L.toFinset :=
    fun x hx => List.mem_toFinset.2 (hsub x (List.mem_toFinset.1 hx))
  have h3 := Finset.card_le_card h2
  have h4 := L.toFinset_card_le
  omega

theorem sUnion_length_lt {α : Type} [DecidableEq α] {A B : List α} {x : α}
    (hxB : x ∈ B) (hxA : x ∉ A) : A.length < (sUnion A B).length := by
  have hmem : x ∈ sUnion A B := mem_sUnion.2 (Or.inr hxB)
  rw [sUnion] at hmem ⊢
  rcases List.mem_append.1 hmem with h | h
  · exact absurd h hxA
  · rw [List.length_append]
    have h5 := List.length_pos.2 (List.ne_nil_of_mem h)
    omega

theorem sEqB_false_sub {α : Type} [DecidableEq α] {A B : List α}
    (hsub : ∀ x ∈ A, x ∈ B) (h : ¬ (sEqB A B = true)) : ∃ x ∈ B, x ∉ A := by
  by_contra hc
  push_neg at hc
  exact h (sEqB_iff.2 ⟨hsub, hc⟩)

/-- The closure loop of `generate` stabilises within its fuel: each
failing equality test strictly grows `old_set`, which is capped by the
ambient group. -/
theorem genLoop_terminates {α : Type} [DecidableEq α] {fn : α × α → α} {e : α}
    {Gs : List α} (hG : GroupFacts fn e Gs) :
    ∀ (fuel : ℕ) (old : List α), (∀ x ∈ old, x ∈ Gs) → old.Nodup →
      Gs.length + 1 ≤ fuel + old.length →
      ∃ res, genLoop fn fuel old (sUnion old (mkSet ((combos2 old).map fn))) = some res := by
  intro fuel
  induction fuel with
  | zero =>
    intro old hsub hnd hbound
    have := nodup_length_le hnd hsub
    omega
  | succ fuel ih =>
    intro old hsub hnd hbound
    set new := sUnion old (mkSet ((combos2 old).map fn)) with hnewdef
    by_cases heq : sEqB old new = true
    · exact ⟨new, by rw [genLoop, if_pos heq]⟩
    · have holdnew : ∀ x ∈ old, x ∈ new := fun x hx => mem_sUnion.2 (Or.inl hx)
      obtain ⟨x, hxnew, hxold⟩ := sEqB_false_sub holdnew heq
      have hnewGs : ∀ z ∈ new, z ∈ Gs := by
        intro z hz
        rcases mem_sUnion.1 hz with h | h
        · exact hsub z h
        · rcases List.mem_map.1 (mem_mkSet.1 h) with ⟨p, hp, rfl⟩
          rcases combos2_mem_left hp with ⟨h1, h2⟩
          exact hG.cl _ (hsub _ h1) _ (hsub _ h2)
      have hnewnd : new.Nodup := nodup_sUnion hnd (nodup_mkSet _)
      have h5 : old.length < (sUnion old new).length := sUnion_length_lt hxnew hxold
      have h6 : ∀ z ∈ sUnion old new, z ∈ Gs := by
        intro z hz
        rcases mem_sUnion.1 hz with h | h
        · exact hsub z h
        · exact hnewGs z h
      obtain ⟨res, hres⟩ := ih (sUnion old new) h6 (nodup_sUnion hnd hnewnd) (by omega)
      refine ⟨res, ?_⟩
      rw [genLoop, if_neg heq]
      exact hres

/-- Invariants of the closure loop: a stabilised result stays inside the
ambient group, is duplicate-free, contains the start set, stays inside
any product-closed superset `K` of the start set, and — by
`sorted_closed_full` — is closed under all products. -/
theorem genLoop_props {α : Type} [DecidableEq α] {fn : α × α → α} {e : α}
    {Gs : List α} (hG : GroupFacts fn e Gs) (K : List α)
    (hK : ∀ a ∈ K, ∀ b ∈ K, fn (a, b) ∈ K) :
    ∀ (fuel : ℕ) (old res : List α),
      genLoop fn fuel old (sUnion old (mkSet ((combos2 old).map fn))) = some res →
      (∀ x ∈ old, x ∈ Gs) → old.Nodup → (∀ x ∈ old, x ∈ K) →
      (∀ x ∈ res, x ∈ Gs) ∧ res.Nodup ∧ (∀ x ∈ old, x ∈ res) ∧
        (∀ x ∈ res, x ∈ K) ∧ (∀ a ∈ res, ∀ b ∈ res, fn (a, b) ∈ res) := by
  intro fuel
  induction fuel with
  | zero =>
    intro old res hres _ _ _
    rw [genLoop] at hres
    cases hres
  | succ fuel ih =>
    intro old res hres hGs hnd hKsub
    set new := sUnion old (mkSet ((combos2 old).map fn)) with hnewdef
    have hnewGs : ∀ z ∈ new, z ∈ Gs := by
      intro z hz
      rcases mem_sUnion.1 hz with h | h
      · exact hGs z h
      · rcases List.mem_map.1 (mem_mkSet.1 h) with ⟨p, hp, rfl⟩
        rcases combos2_mem_left hp with ⟨h1, h2⟩
        exact hG.cl _ (hGs _ h1) _ (hGs _ h2)
    have hnewnd : new.Nodup := nodup_sUnion hnd (nodup_mkSet _)
    have hnewK : ∀ z ∈ new, z ∈ K := by
      intro z hz
      rcases mem_sUnion.1 hz with h | h
      · exact hKsub z h
      · rcases List.mem_map.1 (mem_mkSet.1 h) with ⟨p, hp, rfl⟩
        rcases combos2_mem_left hp with ⟨h1, h2⟩
        exact hK _ (hKsub _ h1) _ (hKsub _ h2)
    rw [genLoop] at hres
    by_cases heq : sEqB old new = true
    · rw [if_pos heq] at hres
      injection hres with hres
      subst hres
      have hback : ∀ x ∈ new, x ∈ old := (sEqB_iff.1 heq).2
      refine ⟨hnewGs, hnewnd, fun x hx => mem_sUnion.2 (Or.inl hx), hnewK, ?_⟩
      have hsorted : ∀ i j (hij : i ≤ j) (hj : j < old.length),
          fn (old.get ⟨i, lt_of_le_of_lt hij hj⟩, old.get ⟨j, hj⟩) ∈ old := by
        intro i j hij hj
        have hp := combos2_mem_of_le hij hj (l := old)
        have h2 : fn (old.get ⟨i, lt_of_le_of_lt hij hj⟩, old.get ⟨j, hj⟩) ∈ new :=
          mem_sUnion.2 (Or.inr (mem_mkSet.2 (List.mem_map.2 ⟨_, hp, rfl⟩)))
        exact hback _ h2
      have hclosed := sorted_closed_full hG old hGs hnd hsorted
      intro a ha b hb
      exact mem_sUnion.2 (Or.inl (hclosed a (hback a ha) b (hback b hb)))
    · rw [if_neg heq] at hres
      have hres' : genLoop fn fuel (sUnion old new)
          (sUnion (sUnion old new) (mkSet ((combos2 (sUnion old new)).map fn))) =
            some res := hres
      have hGs' : ∀ z ∈ sUnion old new, z ∈ Gs := by
        intro z hz
        rcases mem_sUnion.1 hz with h | h
        · exact hGs z h
        · exact hnewGs z h
      have hK' : ∀ z ∈ sUnion old new, z ∈ K := by
        intro z hz
        rcases mem_sUnion.1 hz with h | h
        · exact hKsub z h
        · exact hnewK z h
      obtain ⟨r1, r2, r3, r4, r5⟩ :=
        ih (sUnion old new) res hres' hGs' (nodup_sUnion hnd hnewnd) hK'
      exact ⟨r1, r2, fun x hx => r3 x (mem_sUnion.2 (Or.inl hx)), r4, r5⟩

/-- Full specification of `Group.generate` on a genuine group: it
succeeds on any non-empty seed of members and returns the smallest
product-closed subset containing the seed, packaged through
`Group.__init__` with the same operation. -/
theorem generate_spec {α : Type} [DecidableEq α] {g : PyGroup α}
    (hG : GroupFacts g.bin_op.fn g.e g.set)
    (hnd : g.set.Nodup)
    (hdom : domainOk g.set g.bin_op = true)
    (seed : List α) (hne : seed ≠ []) (hsub : ∀ x ∈ seed, x ∈ g.set) :
    ∃ res, generate g seed = .ok ⟨res, g.bin_op, g.e, abelianB res g.bin_op.fn, none⟩ ∧
      (∀ x ∈ res, x ∈ g.set) ∧ res.Nodup ∧ (∀ x ∈ seed, x ∈ res) ∧
      (∀ a ∈ res, ∀ b ∈ res, g.bin_op.fn (a, b) ∈ res) ∧
      (∀ K : List α, (∀ x ∈ seed, x ∈ K) →
        (∀ a ∈ K, ∀ b ∈ K, g.bin_op.fn (a, b) ∈ K) → ∀ x ∈ res, x ∈ K) := by
  have holdGs : ∀ x ∈ mkSet seed, x ∈ g.set := fun x hx => hsub x (mem_mkSet.1 hx)
  have holdnd := nodup_mkSet seed
  obtain ⟨res, hres⟩ := genLoop_terminates hG (2 * g.set.length + 3) (mkSet seed)
    holdGs holdnd (by omega)
  obtain ⟨r1, r2, r3, r4, r5⟩ := genLoop_props hG g.set hG.cl
    (2 * g.set.length + 3) (mkSet seed) res hres holdGs holdnd holdGs
  have hOrRes : ∀ a ∈ res, ∀ b ∈ res, g.bin_op.fn (a, b) ∈ res ∨
      g.bin_op.fn (b, a) ∈ res := fun a ha b hb => Or.inl (r5 a ha b hb)
  obtain ⟨x0, hx0⟩ := List.exists_mem_of_ne_nil seed hne
  have hx0res : x0 ∈ res := r3 x0 (mem_mkSet.2 hx0)
  have heres : g.e ∈ res := e_mem_T hG r1 hOrRes hx0res
  have hgen : generate g seed = groupInit res g.bin_op none false := by
    rw [generate]
    rw [if_neg (fun hc : seed.length = 0 => hne (List.length_eq_zero.1 hc))]
    rw [if_neg ?hall]
    case hall =>
      intro hc
      apply hc
      rw [List.all_eq_true]
      intro s hs
      simp only [decide_eq_true_eq]
      exact hsub s hs
    have hstep : genLoop g.bin_op.fn (2 * g.set.length + 4) (mkSet seed) [] =
        genLoop g.bin_op.fn (2 * g.set.length + 3) (mkSet seed)
          (sUnion (mkSet seed) (mkSet ((combos2 (mkSet seed)).map g.bin_op.fn))) := by
      rw [show 2 * g.set.length + 4 = (2 * g.set.length + 3) + 1 from rfl]
      rw [genLoop]
      rw [if_neg ?hne2]
      case hne2 =>
        intro hc
        have h2 := (sEqB_iff.1 hc).1 x0 (mem_mkSet.2 hx0)
        cases h2
      have hkey : sUnion (mkSet seed) [] = mkSet seed := by
        rw [sUnion]
        simp
      show genLoop g.bin_op.fn (2 * g.set.length + 3) (sUnion (mkSet seed) [])
          (sUnion (sUnion (mkSet seed) [])
            (mkSet ((combos2 (sUnion (mkSet seed) [])).map g.bin_op.fn))) = _
      rw [hkey]
    rw [hstep, hres]
  have hid : identitiesList res g.bin_op.fn = [g.e] := by
    rw [identitiesList]
    refine filter_eq_singleton r2 heres ?_ ?_
    · rw [List.all_eq_true]
      intro a ha
      rw [Bool.and_eq_true, decide_eq_true_eq, decide_eq_true_eq]
      exact ⟨hG.idL a (r1 a ha), hG.idR a (r1 a ha)⟩
    · intro x hx hall
      rw [List.all_eq_true] at hall
      have h2 := hall g.e heres
      rw [Bool.and_eq_true, decide_eq_true_eq, decide_eq_true_eq] at h2
      exact (hG.idR x (r1 x hx)).symm.trans h2.1
  have hinvOk : inversesOk res g.bin_op.fn g.e = true := by
    rw [inversesOk]
    have hfil : res.filter
        (fun a => res.any (fun b => decide (g.bin_op.fn (a, b) = g.e))) = res := by
      rw [List.filter_eq_self]
      intro a ha
      obtain ⟨y, hyT, hyr, hyl⟩ := inv_mem_T hG r1 hOrRes ha
      rw [List.any_eq_true]
      refine ⟨y, hyT, ?_⟩
      simp only [decide_eq_true_eq]
      exact hyr
    rw [hfil]
    simp
  have hdomres : domainOk res g.bin_op = true := by
    rw [domainOk, sSubB_iff]
    intro p hp
    rcases mem_setSq.1 hp with ⟨h1, h2⟩
    rw [domainOk, sSubB_iff] at hdom
    exact hdom p (mem_setSq.2 ⟨r1 _ h1, r1 _ h2⟩)
  have hclres : closureOk res g.bin_op = true := by
    rw [closureOk, sSubB_iff]
    intro x hx
    rcases List.mem_map.1 (mem_mkSet.1 hx) with ⟨p, hp, rfl⟩
    rcases mem_setSq.1 hp with ⟨h1, h2⟩
    exact r5 _ h1 _ h2
  have hassocres : assocOk res g.bin_op.fn = true := by
    rw [assocOk, List.all_eq_true]
    intro t ht
    rcases combos3_mem ht with ⟨h1, h2, h3⟩
    simp only [decide_eq_true_eq]
    exact hG.assoc _ (r1 _ h1) _ (r1 _ h2) _ (r1 _ h3)
  refine ⟨res, ?_, r1, r2, (fun x hx => r3 x (mem_mkSet.2 hx)), r5, ?_⟩
  · rw [hgen]
    exact groupInit_eq_ok_none hdomres hclres hid (fun _ => hassocres) hinvOk
  · intro K hKseed hKcl x hx
    have hKold : ∀ z ∈ mkSet seed, z ∈ K := fun z hz => hKseed z (mem_mkSet.1 hz)
    exact (genLoop_props hG K hKcl _ _ _ hres holdGs holdnd hKold).2.2.2.1 x hx

/-- A successfully constructed group with a duplicate-free element list
and a fully associative operation satisfies the group laws. -/
theorem groupFacts_of_init {α : Type} [DecidableEq α]
    {els : List α} {f : BinFunc α} {d : Option (List α)} {sk : Bool}
    {g : PyGroup α}
    (hok : groupInit els f d sk = .ok g)
    (hassocAll : assocAll els f.fn = true) :
    GroupFacts f.fn g.e els := by
  rcases groupInit_ok_inv hok with ⟨hset, hbin, hdom, hcl, hid, -, hinv⟩
  have hidmem : g.e ∈ identitiesList els f.fn := by
    rw [hid]
    exact List.mem_cons_self _ _
  rw [identitiesList] at hidmem
  rcases List.mem_filter.1 hidmem with ⟨hemem, hpred⟩
  rw [List.all_eq_true] at hpred
  refine ⟨?_, ?_, hemem, ?_, ?_, ?_⟩
  · intro a ha b hb
    rw [closureOk, sSubB_iff] at hcl
    exact hcl _ (mem_mkSet.2 (List.mem_map.2 ⟨(a, b), mem_setSq.2 ⟨ha, hb⟩, rfl⟩))
  · intro a ha b hb c hc
    rw [assocAll, List.all_eq_true] at hassocAll
    have h1 := hassocAll a ha
    rw [List.all_eq_true] at h1
    have h2 := h1 b hb
    rw [List.all_eq_true] at h2
    have h3 := h2 c hc
    rw [decide_eq_true_eq] at h3
    exact h3
  · intro a ha
    have h4 := hpred a ha
    rw [Bool.and_eq_true, decide_eq_true_eq, decide_eq_true_eq] at h4
    exact h4.1
  · intro a ha
    have h4 := hpred a ha
    rw [Bool.and_eq_true, decide_eq_true_eq, decide_eq_true_eq] at h4
    exact h4.2
  · intro a ha
    rw [inversesOk, decide_eq_true_eq] at hinv
    have hfe : els.filter
        (fun a2 => els.any (fun b => decide (f.fn (a2, b) = g.e))) = els :=
      (List.filter_sublist _).eq_of_length hinv
    have hmem2 : a ∈ els.filter
        (fun a2 => els.any (fun b => decide (f.fn (a2, b) = g.e))) := by
      rw [hfe]
      exact ha
    rcases List.mem_filter.1 hmem2 with ⟨-, hany⟩
    rw [List.any_eq_true] at hany
    rcases hany with ⟨b, hb, hfb⟩
    rw [decide_eq_true_eq] at hfb
    exact ⟨b, hb, hfb⟩

theorem funcEqB_refl {α : Type} [DecidableEq α] (f : BinFunc α) :
    funcEqB f f = true := by
  rw [funcEqB, sEqB_self, sEqB_self]
  simp [List.all_eq_true]

/-- C2: for every successfully constructed group with duplicate-free
elements and a genuinely associative operation, and every non-empty seed
of members, `generate` succeeds and returns the smallest product-closed
subset of the group containing the seed, as a group under the same
operation (with the group identity and inverses inside);
`generate([e])` yields the trivial subgroup `{e}`, `generate` of all
elements yields a group `Group.__eq__`-equal to the original, and an
empty seed raises `ValueError`. -/
theorem c2_generate_smallest {α : Type} [DecidableEq α]
    {els : List α} {f : BinFunc α} {d : Option (List α)} {sk : Bool}
    {g : PyGroup α}
    (hok : groupInit els f d sk = .ok g)
    (hnd : els.Nodup)
    (hassocAll : assocAll els f.fn = true) :
    (∀ seed : List α, seed ≠ [] → (∀ x ∈ seed, x ∈ g.set) →
      ∃ H, generate g seed = .ok H ∧ H.bin_op = g.bin_op ∧
        (∀ x ∈ H.set, x ∈ g.set) ∧ (∀ x ∈ seed, x ∈ H.set) ∧
        (∀ a ∈ H.set, ∀ b ∈ H.set, g.bin_op.fn (a, b) ∈ H.set) ∧
        g.e ∈ H.set ∧
        (∀ a ∈ H.set, ∃ b, b ∈ H.set ∧ g.bin_op.fn (a, b) = g.e) ∧
        (∀ K : List α, (∀ x ∈ seed, x ∈ K) →
          (∀ a ∈ K, ∀ b ∈ K, g.bin_op.fn (a, b) ∈ K) →
          ∀ x ∈ H.set, x ∈ K)) ∧
    (∃ H, generate g [g.e] = .ok H ∧ ∀ x, x ∈ H.set ↔ x = g.e) ∧
    (∃ H, generate g g.set = .ok H ∧ groupEqB H g = true) ∧
    generate g [] = .error (.valueError "Elements must be a non-empty iterable.") := by
  rcases groupInit_ok_inv hok with ⟨hset, hbin, hdom0, -, -, -, -⟩
  have hG : GroupFacts g.bin_op.fn g.e g.set := by
    rw [hset, hbin]
    exact groupFacts_of_init hok hassocAll
  have hndg : g.set.Nodup := by
    rw [hset]
    exact hnd
  have hdomg : domainOk g.set g.bin_op = true := by
    rw [hset, hbin]
    exact hdom0
  have main : ∀ seed : List α, seed ≠ [] → (∀ x ∈ seed, x ∈ g.set) →
      ∃ H, generate g seed = .ok H ∧ H.bin_op = g.bin_op ∧
        (∀ x ∈ H.set, x ∈ g.set) ∧ (∀ x ∈ seed, x ∈ H.set) ∧
        (∀ a ∈ H.set, ∀ b ∈ H.set, g.bin_op.fn (a, b) ∈ H.set) ∧
        g.e ∈ H.set ∧
        (∀ a ∈ H.set, ∃ b, b ∈ H.set ∧ g.bin_op.fn (a, b) = g.e) ∧
        (∀ K : List α, (∀ x ∈ seed, x ∈ K) →
          (∀ a ∈ K, ∀ b ∈ K, g.bin_op.fn (a, b) ∈ K) →
          ∀ x ∈ H.set, x ∈ K) := by
    intro seed hne hsub
    obtain ⟨res, hgen, p1, p2, p3, p5, pmin⟩ := generate_spec hG hndg hdomg seed hne hsub
    have hOr : ∀ a ∈ res, ∀ b ∈ res, g.bin_op.fn (a, b) ∈ res ∨
        g.bin_op.fn (b, a) ∈ res := fun a ha b hb => Or.inl (p5 a ha b hb)
    obtain ⟨x0, hx0⟩ := List.exists_mem_of_ne_nil seed hne
    have he : g.e ∈ res := e_mem_T hG p1 hOr (p3 x0 hx0)
    refine ⟨_, hgen, rfl, p1, p3, p5, he, ?_, pmin⟩
    intro a ha
    obtain ⟨y, hy, hyr, -⟩ := inv_mem_T hG p1 hOr ha
    exact ⟨y, hy, hyr⟩
  refine ⟨main, ?_, ?_, ?_⟩
  · obtain ⟨H, hgen, hbineq, q1, q3, q5, q4, qinv, qmin⟩ :=
      main [g.e] (by simp) (by
        intro x hx
        rcases List.mem_singleton.1 hx with rfl
        exact hG.emem)
    refine ⟨H, hgen, ?_⟩
    intro x
    constructor
    · intro hx
      have hcl1 : ∀ a ∈ [g.e], ∀ b ∈ [g.e], g.bin_op.fn (a, b) ∈ [g.e] := by
        intro a ha b hb
        rcases List.mem_singleton.1 ha with rfl
        rcases List.mem_singleton.1 hb with rfl
        rw [hG.idR g.e hG.emem]
        exact List.mem_singleton.2 rfl
      exact List.mem_singleton.1 (qmin [g.e] (fun z hz => hz) hcl1 x hx)
    · rintro rfl
      exact q3 g.e (List.mem_singleton.2 rfl)
  · obtain ⟨H, hgen, hbineq, q1, q3, q5, q4, qinv, qmin⟩ :=
      main g.set (List.ne_nil_of_mem hG.emem) (fun x hx => hx)
    refine ⟨H, hgen, ?_⟩
    rw [groupEqB, hbineq, funcEqB_refl]
    simp only [Bool.true_and]
    exact sEqB_iff.2 ⟨q1, q3⟩
  · rfl

/-- Witness for C2 on the cyclic group of order 3. -/
theorem c2_witness :
    ∃ g : PyGroup ℕ,
      groupInit [0, 1, 2]
        (⟨setSq [0, 1, 2], [0, 1, 2], fun p => (p.1 + p.2) % 3⟩ : BinFunc ℕ)
        none false = .ok g ∧
      ((∀ seed : List ℕ, seed ≠ [] → (∀ x ∈ seed, x ∈ g.set) →
        ∃ H, generate g seed = .ok H ∧ H.bin_op = g.bin_op ∧
          (∀ x ∈ H.set, x ∈ g.set) ∧ (∀ x ∈ seed, x ∈ H.set) ∧
          (∀ a ∈ H.set, ∀ b ∈ H.set, g.bin_op.fn (a, b) ∈ H.set) ∧
          g.e ∈ H.set ∧
          (∀ a ∈ H.set, ∃ b, b ∈ H.set ∧ g.bin_op.fn (a, b) = g.e) ∧
          (∀ K : List ℕ, (∀ x ∈ seed, x ∈ K) →
            (∀ a ∈ K, ∀ b ∈ K, g.bin_op.fn (a, b) ∈ K) →
            ∀ x ∈ H.set, x ∈ K)) ∧
       (∃ H, generate g [g.e] = .ok H ∧ ∀ x, x ∈ H.set ↔ x = g.e) ∧
       (∃ H, generate g g.set = .ok H ∧ groupEqB H g = true) ∧
       generate g [] = .error (.valueError "Elements must be a non-empty iterable.")) :=
  ⟨_, rfl,
    @c2_generate_smallest ℕ _ [0, 1, 2]
      ⟨setSq [0, 1, 2], [0, 1, 2], fun p => (p.1 + p.2) % 3⟩ none false _
      rfl (by decide) (by decide)⟩
